import Mathlib

/-!
Verification of the text chunking + audio stitching core of the
english-listening-trainer repository.

The text segmenter is embedded from `kokoro_local/text_chunker.py`
(`split_text_intelligently`, `split_by_sentences`, `split_by_commas`,
`_chunk_by_tokens`).  Strings are modelled as `List Char`; Python's
`str.split`, `str.strip`, `str.rstrip`, `re.findall(r'\S+\s*')` and
`re.split(r'(?<=[.!?])\s+')` are given executable models below.

The container-level audio assembler is embedded from
`kokoro_local/kokoro_wrapper.py` (`generate_speech_chunked`, lines 308-389);
byte strings are modelled as `List Nat`.

The waveform crossfade assembler is embedded from
`Kokoro-TTS-webui-ref/backend/main.py` (`crossfade_audio`,
`concatenate_audio_chunks`); float samples are modelled as `ℚ` and numpy
array operations (broadcasting multiply/add, `linspace`, negative-index
slicing, including the `a[:-0] = []` / `a[-0:] = a` quirks) are modelled
explicitly, with `Option` capturing numpy shape errors.
-/

/-- Python whitespace predicate (the characters stripped by `str.strip()`
and matched by `\s` for ASCII input): space, tab, newline, carriage
return, vertical tab, form feed. -/
def pySpace (c : Char) : Bool :=
  c == ' ' || c == '\t' || c == '\n' || c == '\r' ||
  c == Char.ofNat 11 || c == Char.ofNat 12

/-- Remove the longest suffix of characters satisfying `bad`
(Python `str.rstrip` with a character set). -/
def pyRstripWith (bad : Char → Bool) (l : List Char) : List Char :=
  (l.reverse.dropWhile bad).reverse

/-- Python `str.strip()`: remove leading and trailing whitespace. -/
def pyStrip (l : List Char) : List Char :=
  (pyRstripWith pySpace l).dropWhile pySpace

/-- The character set of Python `rstrip(', ')`. -/
def commaSpaceSet (c : Char) : Bool := c == ',' || c == ' '

/-- Cons a character onto the first piece of a split result. -/
def consHead (x : Char) : List (List Char) → List (List Char)
  | [] => [[x]]
  | h :: t => (x :: h) :: t

/-- Python `text.split(sep)` for a two-character separator `[a, b]`:
scan left to right for non-overlapping occurrences of the pair.
Used for `text.split('\n\n')` and `text.split(', ')`. -/
def splitOnPair (a b : Char) : List Char → List (List Char)
  | [] => [[]]
  | [x] => [[x]]
  | x :: y :: rest =>
    if x = a ∧ y = b then [] :: splitOnPair a b rest
    else consHead x (splitOnPair a b (y :: rest))

/-- Does the accumulated piece end in sentence punctuation `.`, `!`, `?`
(the lookbehind of `re.split(r'(?<=[.!?])\s+', text)`)? -/
def isSentEnd (cur : List Char) : Bool :=
  match cur.getLast? with
  | some c => c == '.' || c == '!' || c == '?'
  | none => false

/-- One scanning step of `re.split(r'(?<=[.!?])\s+', text)`.
State: (finished pieces, current piece, inside-a-matched-whitespace-run).
A whitespace character directly after `.`/`!`/`?` closes the current
piece and starts consuming the (greedy) whitespace run. -/
def sentStep (st : List (List Char) × List Char × Bool) (c : Char) :
    List (List Char) × List Char × Bool :=
  let (acc, cur, skip) := st
  if skip then
    if pySpace c then (acc, cur, true) else (acc, [c], false)
  else
    if pySpace c && isSentEnd cur then (acc ++ [cur], [], true)
    else (acc, cur ++ [c], false)

/-- `re.split(r'(?<=[.!?])\s+', text)`: split on whitespace runs preceded
by sentence-ending punctuation, consuming the whitespace. -/
def sentSplit (s : List Char) : List (List Char) :=
  let r := s.foldl sentStep ([], [], false)
  r.1 ++ [r.2.1]

/-- One scanning step of `re.findall(r'\S+\s*', text)`.
State: (finished tokens, current token, inside-the-trailing-`\s*`-part).
Leading whitespace (before any token) is not matched and is dropped. -/
def tokStep (st : List (List Char) × List Char × Bool) (c : Char) :
    List (List Char) × List Char × Bool :=
  let (acc, cur, inTail) := st
  if cur.isEmpty then
    if pySpace c then (acc, [], false) else (acc, [c], false)
  else if inTail then
    if pySpace c then (acc, cur ++ [c], true) else (acc ++ [cur], [c], false)
  else
    if pySpace c then (acc, cur ++ [c], true) else (acc, cur ++ [c], false)

/-- `re.findall(r'\S+\s*', text)`: the list of maximal non-whitespace runs,
each with its following whitespace run attached. -/
def findTokens (s : List Char) : List (List Char) :=
  let r := s.foldl tokStep ([], [], false)
  if r.2.1 = [] then r.1 else r.1 ++ [r.2.1]

/-- One step of fixed-width slicing. -/
def chunkStep (n : Nat) (st : List (List Char) × List Char) (c : Char) :
    List (List Char) × List Char :=
  let (acc, cur) := st
  if cur.length + 1 = n then (acc ++ [cur ++ [c]], []) else (acc, cur ++ [c])

/-- `[token[i:i+n] for i in range(0, len(token), n)]`: cut a list into
consecutive slices of width `n` (the final slice may be shorter).
Faithful to the Python loop for `n ≥ 1`, the only way it is invoked. -/
def chunksOfList (n : Nat) (s : List Char) : List (List Char) :=
  let r := s.foldl (chunkStep n) ([], [])
  if r.2 = [] then r.1 else r.1 ++ [r.2]

/-- One loop iteration of `_chunk_by_tokens` in
`kokoro_local/text_chunker.py` (lines 22-37).  State:
(`chunks`, `current_chunk`). -/
def chunkByTokensStep (maxSize : Nat) (st : List (List Char) × List Char)
    (token : List Char) : List (List Char) × List Char :=
  let (chunks, cur) := st
  let prospective := cur ++ token
  if prospective.length ≤ maxSize then (chunks, prospective)
  else if pyStrip cur ≠ [] then (chunks ++ [pyStrip cur], token)
  else if token.length ≤ maxSize then (chunks, token)
  else (chunks ++ (chunksOfList maxSize token).map pyStrip, [])

/-- `_chunk_by_tokens(text, max_chunk_size)` from
`kokoro_local/text_chunker.py` (lines 14-42): greedy packing of
`\S+\s*` tokens with a character-level fallback for oversized tokens. -/
def chunk_by_tokens (text : List Char) (maxSize : Nat) : List (List Char) :=
  let r := (findTokens text).foldl (chunkByTokensStep maxSize) ([], [])
  if pyStrip r.2 ≠ [] then r.1 ++ [pyStrip r.2] else r.1

/-- The body of one `split_by_commas` loop iteration (lines 140-156),
acting on the already-built `segment` (the part with `", "` re-appended
when it is not value-equal to the last part). -/
def splitByCommasCore (maxSize : Nat) (st : List (List Char) × List Char)
    (segment : List Char) : List (List Char) × List Char :=
  let (chunks, cur) := st
  let prospective := cur ++ segment
  if prospective.length ≤ maxSize then (chunks, prospective)
  else
    let st1 :=
      if pyStrip cur ≠ [] then (chunks ++ [pyRstripWith commaSpaceSet cur], ([] : List Char))
      else (chunks, cur)
    if maxSize < segment.length then
      let wc := chunk_by_tokens segment maxSize
      if wc = [] then st1
      else (st1.1 ++ wc.dropLast.map (pyRstripWith commaSpaceSet), wc.getLastD [])
    else (st1.1, segment)

/-- One loop iteration of `split_by_commas` (lines 138-156).  `lastPart`
is `parts[-1]`; the Python code compares each part to it *by value*. -/
def splitByCommasStep (maxSize : Nat) (lastPart : List Char)
    (st : List (List Char) × List Char) (part : List Char) :
    List (List Char) × List Char :=
  splitByCommasCore maxSize st (if part ≠ lastPart then part ++ [',', ' '] else part)

/-- `split_by_commas(text, max_chunk_size)` from
`kokoro_local/text_chunker.py` (lines 123-168). -/
def split_by_commas (text : List Char) (maxSize : Nat) : List (List Char) :=
  let parts := splitOnPair ',' ' ' text
  let r := parts.foldl (splitByCommasStep maxSize (parts.getLastD [])) ([], [])
  let chunks :=
    if pyStrip r.2 ≠ [] then r.1 ++ [pyRstripWith commaSpaceSet r.2] else r.1
  let normalized :=
    (chunks.map (fun c =>
      if maxSize < c.length then chunk_by_tokens c maxSize else [c])).flatten
  normalized.filter (· ≠ [])

/-- One loop iteration of `split_by_sentences` (lines 102-115). -/
def splitBySentencesStep (maxSize : Nat) (st : List (List Char) × List Char)
    (sentence : List Char) : List (List Char) × List Char :=
  let (chunks, cur) := st
  if (cur ++ sentence).length ≤ maxSize then (chunks, cur ++ sentence ++ [' '])
  else
    let st1 :=
      if pyStrip cur ≠ [] then (chunks ++ [pyStrip cur], ([] : List Char))
      else (chunks, cur)
    if maxSize < sentence.length then (st1.1 ++ split_by_commas sentence maxSize, st1.2)
    else (st1.1, sentence ++ [' '])

/-- `split_by_sentences(text, max_chunk_size)` from
`kokoro_local/text_chunker.py` (lines 86-120). -/
def split_by_sentences (text : List Char) (maxSize : Nat) : List (List Char) :=
  let r := (sentSplit text).foldl (splitBySentencesStep maxSize) ([], [])
  if pyStrip r.2 ≠ [] then r.1 ++ [pyStrip r.2] else r.1

/-- One loop iteration of `split_text_intelligently` (lines 62-77). -/
def splitTextStep (maxSize : Nat) (st : List (List Char) × List Char)
    (paragraph : List Char) : List (List Char) × List Char :=
  let (chunks, cur) := st
  if (cur ++ paragraph).length ≤ maxSize then
    (chunks, cur ++ paragraph ++ ['\n', '\n'])
  else
    let st1 :=
      if pyStrip cur ≠ [] then (chunks ++ [pyStrip cur], ([] : List Char))
      else (chunks, cur)
    if maxSize < paragraph.length then
      (st1.1 ++ split_by_sentences paragraph maxSize, st1.2)
    else (st1.1, paragraph ++ ['\n', '\n'])

/-- `split_text_intelligently(text, max_chunk_size)` from
`kokoro_local/text_chunker.py` (lines 45-83): the public segmenter. -/
def split_text_intelligently (text : List Char) (maxSize : Nat) :
    List (List Char) :=
  let r := (splitOnPair '\n' '\n' text).foldl (splitTextStep maxSize) ([], [])
  if pyStrip r.2 ≠ [] then r.1 ++ [pyStrip r.2] else r.1

/-! ## Container-level audio assembly

Embedded from `kokoro_local/kokoro_wrapper.py`, `generate_speech_chunked`
(lines 308-389).  Byte strings are `List Nat` (one entry per byte). -/

/-- The bytes of `b'RIFF'`. -/
def riffMagic : List Nat := [82, 73, 70, 70]

/-- The bytes of `b'data'`. -/
def dataTag : List Nat := [100, 97, 116, 97]

/-- `bytes.find(pat)`: index of the first occurrence of `pat`, or `none`
(Python returns `-1`) when absent. -/
def findSub (pat : List Nat) : List Nat → Option Nat
  | [] => if pat.isPrefixOf ([] : List Nat) then some 0 else none
  | x :: xs =>
    if pat.isPrefixOf (x :: xs) then some 0
    else (findSub pat xs).map (· + 1)

/-- Per-chunk payload extraction (lines 319-331): a RIFF chunk has its
`data` marker located by scanning; the payload is everything after the
marker's 4 tag bytes + 4 size bytes.  A RIFF chunk without a locatable
marker, or whose payload would start at or past the end, is skipped
(`none`).  A chunk without the RIFF magic is taken verbatim as raw PCM. -/
def extract_chunk_audio (chunk : List Nat) : Option (List Nat) :=
  if riffMagic.isPrefixOf chunk then
    match findSub dataTag chunk with
    | none => none
    | some pos => if chunk.length ≤ pos + 8 then none else some (chunk.drop (pos + 8))
  else some chunk

/-- The WAV header fields recomputed by the assembler (lines 348-374). -/
structure WavHeader where
  riffSize : Nat
  audioFormat : Nat
  numChannels : Nat
  sampleRate : Nat
  byteRate : Nat
  blockAlign : Nat
  bitsPerSample : Nat
  dataSize : Nat
  deriving DecidableEq, Repr

/-- The header written by `generate_speech_chunked` for a combined data
payload of `dataSize` bytes (lines 350-374):
`sample_rate = 24000`, `num_channels = 1`, `bits_per_sample = 16`,
`byte_rate = sample_rate * num_channels * bits_per_sample // 8`,
`block_align = num_channels * bits_per_sample // 8`,
`riff_size = 36 + data_size`. -/
def mkWavHeader (dataSize : Nat) : WavHeader :=
  { riffSize := 36 + dataSize
    audioFormat := 1
    numChannels := 1
    sampleRate := 24000
    byteRate := 24000 * 1 * 16 / 8
    blockAlign := 1 * 16 / 8
    bitsPerSample := 16
    dataSize := dataSize }

/-- Container-level assembly (lines 311-389): extract every chunk's PCM
payload (skipping malformed chunks), concatenate in order, pad with one
zero byte if the combined length is odd, and emit the recomputed header
with the padded payload.  `none` models the
`"No audio chunks were generated successfully"` exception raised when
no chunk yields extractable audio. -/
def assemble_containers (chunks : List (List Nat)) :
    Option (WavHeader × List Nat) :=
  let payloads := chunks.filterMap extract_chunk_audio
  if payloads.isEmpty then none
  else
    let combined := payloads.flatten
    let padded := if combined.length % 2 = 1 then combined ++ [0] else combined
    some (mkWavHeader padded.length, padded)

/-- Stable insertion into a list sorted by first component (strictly
smaller keys go first; equal keys keep the existing element first),
matching the stability of Python `sorted(..., key=lambda x: x[0])`. -/
def insertByFst (x : Nat × List Nat) :
    List (Nat × List Nat) → List (Nat × List Nat)
  | [] => [x]
  | y :: ys => if x.1 < y.1 then x :: y :: ys else y :: insertByFst x ys

/-- `sorted(results, key=lambda x: x[0])` as a stable insertion sort. -/
def sortByFst (l : List (Nat × List Nat)) : List (Nat × List Nat) :=
  l.foldr insertByFst []

/-- The chunked pipeline around the assembler (lines 299-389):
per-chunk synthesis outcomes arrive in task order (`asyncio.gather`
preserves submission order); exceptions are filtered out, the surviving
`(index, bytes)` results are sorted by original chunk index, and the
byte payloads are assembled.  `outcomes[i] = none` models chunk `i`
failing synthesis. -/
def chunked_pipeline (outcomes : List (Option (List Nat))) :
    Option (WavHeader × List Nat) :=
  let results := outcomes.enum.filterMap (fun p => p.2.map (fun bs => (p.1, bs)))
  let ordered := sortByFst results
  assemble_containers (ordered.map Prod.snd)

/-! ## Waveform crossfade assembly

Embedded from `Kokoro-TTS-webui-ref/backend/main.py` (`crossfade_audio`
lines 66-102, `concatenate_audio_chunks` lines 104-126).  Audio samples
are `ℚ`; numpy 1-d array operations are modelled exactly, including
shape-broadcast failures (as `none`) and Python's negative-index slicing
quirk `a[:-0] = []`, `a[-0:] = a`. -/

/-- Python `int(q)`: truncation toward zero. -/
def pyTrunc (q : ℚ) : ℤ := q.num.tdiv (q.den : ℤ)

/-- `np.linspace(a, b, n)` for `n ≥ 0`: `n` evenly spaced points from
`a` to `b` inclusive (`[a]` for `n = 1`, `[]` for `n = 0`). -/
def linspace (a b : ℚ) (n : Nat) : List ℚ :=
  (List.range n).map (fun (i : ℕ) => a + (b - a) * (i : ℚ) / ((n : ℚ) - 1))

/-- Elementwise numpy multiplication of 1-d arrays with broadcasting:
equal lengths multiply pointwise, a length-1 operand broadcasts, any
other shape mismatch raises (`none`). -/
def npMul (xs ys : List ℚ) : Option (List ℚ) :=
  if xs.length = ys.length then some (List.zipWith (· * ·) xs ys)
  else
    match xs, ys with
    | [x], ys => some (ys.map (fun y => x * y))
    | xs, [y] => some (xs.map (fun x => x * y))
    | _, _ => none

/-- Elementwise numpy addition of 1-d arrays with broadcasting. -/
def npAdd (xs ys : List ℚ) : Option (List ℚ) :=
  if xs.length = ys.length then some (List.zipWith (· + ·) xs ys)
  else
    match xs, ys with
    | [x], ys => some (ys.map (fun y => x + y))
    | xs, [y] => some (xs.map (fun x => x + y))
    | _, _ => none

/-- Python `a[-n:]` for `n ≥ 0`: the last `n` elements — except that
`a[-0:]` is all of `a`. -/
def tailSlice (a : List ℚ) (n : Nat) : List ℚ :=
  if n = 0 then a else a.drop (a.length - n)

/-- Python `a[:-n]` for `n ≥ 0`: all but the last `n` elements — except
that `a[:-0]` is `a[:0] = []`. -/
def initSlice (a : List ℚ) (n : Nat) : List ℚ :=
  if n = 0 then [] else a.take (a.length - n)

/-- `crossfade_audio(audio1, audio2, sample_rate, fade_duration)` from
`Kokoro-TTS-webui-ref/backend/main.py` (lines 66-102).
`fade_samples = int(fade_duration * sample_rate)` is computed first; if
it is zero the buffers are concatenated outright.  Otherwise it is
clamped by both lengths, linear fade ramps are built with `np.linspace`
(which raises for a negative count, modelled by `none`), the overlap
regions are multiplied by the ramps and summed, and the three parts are
concatenated.  Shape mismatches in the numpy operations yield `none`. -/
def crossfade_audio (audio1 audio2 : List ℚ) (sample_rate : ℤ)
    (fade_duration : ℚ) : Option (List ℚ) :=
  let fadeSamples0 : ℤ := pyTrunc (fade_duration * (sample_rate : ℚ))
  if fadeSamples0 = 0 then some (audio1 ++ audio2)
  else
    let fs : ℤ := min fadeSamples0 (min (audio1.length : ℤ) (audio2.length : ℤ))
    if fs < 0 then none
    else
      let n := fs.toNat
      match npMul (tailSlice audio1 n) (linspace 1 0 n),
            npMul (audio2.take n) (linspace 0 1 n) with
      | some fadedEnd, some fadedStart =>
        match npAdd fadedEnd fadedStart with
        | some overlap => some (initSlice audio1 n ++ overlap ++ audio2.drop n)
        | none => none
      | _, _ => none

/-- `concatenate_audio_chunks(audio_chunks, sample_rate)` from
`Kokoro-TTS-webui-ref/backend/main.py` (lines 104-126): raise
(`none`) on an empty list, return a single buffer unchanged, otherwise
fold `crossfade_audio` left to right with the default
`fade_duration = 0.1` (modelled as the rational `1/10`; the code path
taken depends only on `int(0.1 * sample_rate)`, which agrees with the
float computation at the observed `sample_rate = 24000`). -/
def concatenate_audio_chunks (audio_chunks : List (List ℚ))
    (sample_rate : ℤ) : Option (List ℚ) :=
  match audio_chunks with
  | [] => none
  | [a] => some a
  | a :: rest =>
    rest.foldlM (fun acc c => crossfade_audio acc c sample_rate (1 / 10)) a

/-! ## Basic properties of the string primitives -/

/-- Every character of the list is non-whitespace. -/
def AllNonWs (l : List Char) : Prop := ∀ c ∈ l, pySpace c = false

/-- The content filter for the conservation invariant: characters that
are neither whitespace nor commas.  Whitespace is freely elided by the
segmenter; commas can additionally be elided by `rstrip(', ')`. -/
def keepChar (c : Char) : Bool := !pySpace c && !(c == ',')

/-- The non-whitespace content of a string, in order. -/
def filterContent (l : List Char) : List Char := l.filter keepChar

/-- The plain non-whitespace characters of a string, in order. -/
def filterNonWs (l : List Char) : List Char := l.filter (fun c => !pySpace c)

theorem pyRstripWith_sublist (bad : Char → Bool) (l : List Char) :
    List.Sublist (pyRstripWith bad l) l := by
  simpa [pyRstripWith] using (List.dropWhile_sublist bad (l := l.reverse)).reverse

theorem pyStrip_sublist (l : List Char) : List.Sublist (pyStrip l) l :=
  (List.dropWhile_sublist pySpace).trans (pyRstripWith_sublist pySpace l)

theorem pyRstripWith_length_le (bad : Char → Bool) (l : List Char) :
    (pyRstripWith bad l).length ≤ l.length :=
  (pyRstripWith_sublist bad l).length_le

theorem pyStrip_length_le (l : List Char) : (pyStrip l).length ≤ l.length :=
  (pyStrip_sublist l).length_le

theorem allNonWs_of_sublist {l m : List Char} (h : List.Sublist l m)
    (hm : AllNonWs m) : AllNonWs l :=
  fun c hc => hm c (h.subset hc)

theorem allNonWs_pyRstripWith (bad : Char → Bool) {l : List Char}
    (h : AllNonWs l) : AllNonWs (pyRstripWith bad l) :=
  allNonWs_of_sublist (pyRstripWith_sublist bad l) h

theorem pyRstripWith_append_bad (bad : Char → Bool) {c : Char}
    (h : bad c = true) (x : List Char) :
    pyRstripWith bad (x ++ [c]) = pyRstripWith bad x := by
  simp [pyRstripWith, List.dropWhile, h]

theorem pyStrip_append_ws {c : Char} (h : pySpace c = true) (x : List Char) :
    pyStrip (x ++ [c]) = pyStrip x := by
  simp [pyStrip, pyRstripWith_append_bad pySpace h]

theorem dropWhile_eq_self_of_allNonWs {l : List Char} (h : AllNonWs l) :
    l.dropWhile pySpace = l := by
  cases l with
  | nil => rfl
  | cons a t => simp [List.dropWhile, h a (by simp)]

theorem pyStrip_of_allNonWs {l : List Char} (h : AllNonWs l) :
    pyStrip l = l := by
  have h1 : pyRstripWith pySpace l = l := by
    have : AllNonWs l.reverse := fun c hc => h c (by simpa using hc)
    simp [pyRstripWith, dropWhile_eq_self_of_allNonWs this]
  rw [pyStrip, h1, dropWhile_eq_self_of_allNonWs h]

theorem filterContent_append (l m : List Char) :
    filterContent (l ++ m) = filterContent l ++ filterContent m := by
  simp [filterContent]

theorem keepChar_eq_false_of_ws {c : Char} (h : pySpace c = true) :
    keepChar c = false := by simp [keepChar, h]

theorem keepChar_eq_false_of_commaSpace {c : Char}
    (h : commaSpaceSet c = true) : keepChar c = false := by
  rcases Bool.or_eq_true_iff.mp h with h1 | h1
  · simp only [beq_iff_eq] at h1
    simp [keepChar, h1]
  · simp only [beq_iff_eq] at h1
    subst h1
    simp [keepChar, pySpace]

theorem filterContent_dropWhile {p : Char → Bool}
    (hp : ∀ c, p c = true → keepChar c = false) (l : List Char) :
    filterContent (l.dropWhile p) = filterContent l := by
  induction l with
  | nil => rfl
  | cons a t ih =>
    by_cases h : p a = true
    · have hk : keepChar a = false := hp a h
      rw [List.dropWhile_cons, if_pos h, ih]
      simp [filterContent, List.filter_cons, hk]
    · rw [List.dropWhile_cons, if_neg h]

theorem filterContent_reverse (l : List Char) :
    filterContent l.reverse = (filterContent l).reverse := by
  simp [filterContent, List.filter_reverse]

theorem filterContent_pyRstripWith {bad : Char → Bool}
    (hp : ∀ c, bad c = true → keepChar c = false) (l : List Char) :
    filterContent (pyRstripWith bad l) = filterContent l := by
  have := filterContent_dropWhile hp l.reverse
  have h2 : (filterContent (l.reverse.dropWhile bad)).reverse
      = (filterContent l.reverse).reverse := by rw [this]
  simpa [pyRstripWith, filterContent_reverse] using h2

theorem filterContent_pyStrip (l : List Char) :
    filterContent (pyStrip l) = filterContent l := by
  rw [pyStrip, filterContent_dropWhile (fun c h => keepChar_eq_false_of_ws h),
    filterContent_pyRstripWith (fun c h => keepChar_eq_false_of_ws h)]

theorem filterContent_eq_nil_of_pyStrip_nil {l : List Char}
    (h : pyStrip l = []) : filterContent l = [] := by
  rw [← filterContent_pyStrip, h]; rfl

theorem getLastD_mem {l : List Char} (d : Char) (h : l ≠ []) :
    l.getLastD d ∈ l := by
  induction l with
  | nil => exact absurd rfl h
  | cons x xs ih =>
    cases xs with
    | nil => simp [List.getLastD]
    | cons y ys => simpa [List.getLastD] using Or.inr (ih (by simp))

theorem getLastD_mem' {l : List (List Char)} (d : List Char) (h : l ≠ []) :
    l.getLastD d ∈ l := by
  induction l with
  | nil => exact absurd rfl h
  | cons x xs ih =>
    cases xs with
    | nil => simp [List.getLastD]
    | cons y ys => simpa [List.getLastD] using Or.inr (ih (by simp))

/-- Generic invariant preservation for `List.foldl`. -/
theorem foldl_invariant {σ α : Type} (f : σ → α → σ) (I : σ → Prop)
    (P : α → Prop) :
    ∀ (l : List α), (∀ a ∈ l, P a) → ∀ s, I s →
      (∀ s a, I s → P a → I (f s a)) → I (l.foldl f s)
  | [], _, s, hs, _ => hs
  | a :: l, hl, s, hs, hstep =>
    foldl_invariant f I P l (fun x hx => hl x (by simp [hx])) (f s a)
      (hstep s a hs (hl a (by simp))) hstep

/-! ## Fixed-width slicing -/

theorem chunksOfList_fold_bound (n : Nat) (hn : 1 ≤ n) (s : List Char) :
    ∀ acc cur, (∀ c ∈ acc, c.length ≤ n) → cur.length < n →
      (∀ c ∈ (s.foldl (chunkStep n) (acc, cur)).1, c.length ≤ n) ∧
        (s.foldl (chunkStep n) (acc, cur)).2.length < n := by
  induction s with
  | nil => intro acc cur h1 h2; exact ⟨h1, h2⟩
  | cons c t ih =>
    intro acc cur h1 h2
    by_cases h : cur.length + 1 = n
    · simp only [List.foldl_cons, chunkStep, h, if_true]
      refine ih _ _ (fun d hd => ?_) (by simp only [List.length_nil]; exact hn)
      rcases List.mem_append.mp hd with hd | hd
      · exact h1 d hd
      · simp only [List.mem_singleton] at hd
        subst hd
        simp [h.le]
    · simp only [List.foldl_cons, chunkStep, h, if_false]
      refine ih _ _ h1 ?_
      have h3 : (cur ++ [c]).length = cur.length + 1 := by simp
      omega

theorem chunksOfList_bound {n : Nat} (hn : 1 ≤ n) (s : List Char) :
    ∀ c ∈ chunksOfList n s, c.length ≤ n := by
  intro c hc
  have h := chunksOfList_fold_bound n hn s [] [] (by simp)
    (by simp only [List.length_nil]; exact hn)
  rw [chunksOfList] at hc
  by_cases h2 : (s.foldl (chunkStep n) ([], [])).2 = []
  · simp only [h2, if_true] at hc
    exact h.1 c hc
  · simp only [h2, if_false] at hc
    rcases List.mem_append.mp hc with hc | hc
    · exact h.1 c hc
    · simp only [List.mem_singleton] at hc
      subst hc
      exact h.2.le

theorem chunksOfList_fold_flatten (n : Nat) (s : List Char) :
    ∀ acc cur,
      (s.foldl (chunkStep n) (acc, cur)).1.flatten ++
        (s.foldl (chunkStep n) (acc, cur)).2 = acc.flatten ++ cur ++ s := by
  induction s with
  | nil => intro acc cur; simp
  | cons c t ih =>
    intro acc cur
    by_cases h : cur.length + 1 = n
    · simp only [List.foldl_cons, chunkStep, h, if_true]
      rw [ih]
      simp
    · simp only [List.foldl_cons, chunkStep, h, if_false]
      rw [ih]
      simp

theorem chunksOfList_flatten (n : Nat) (s : List Char) :
    (chunksOfList n s).flatten = s := by
  have h := chunksOfList_fold_flatten n s [] []
  rw [chunksOfList]
  by_cases h2 : (s.foldl (chunkStep n) ([], [])).2 = []
  · simp only [h2, if_true]
    simpa [h2] using h
  · simp only [h2, if_false]
    simpa using h

/-! ## Tokenization: shape and content -/

/-- A token produced by `re.findall(r'\S+\s*')`: a nonempty
non-whitespace run followed by a whitespace run. -/
def TokShape (t : List Char) : Prop :=
  ∃ a b, t = a ++ b ∧ a ≠ [] ∧ AllNonWs a ∧ ∀ c ∈ b, pySpace c = true

/-- The invariant of the token scanner state. -/
def TokInv (st : List (List Char) × List Char × Bool) : Prop :=
  (∀ t ∈ st.1, TokShape t) ∧
    (st.2.1 = [] → st.2.2 = false) ∧
    (st.2.1 ≠ [] → ∃ a b, st.2.1 = a ++ b ∧ a ≠ [] ∧ AllNonWs a ∧
      (∀ c ∈ b, pySpace c = true) ∧ (st.2.2 = false → b = []))

theorem tokStep_inv (acc : List (List Char)) (cur : List Char)
    (inTail : Bool) (c : Char) (h : TokInv (acc, cur, inTail)) :
    TokInv (tokStep (acc, cur, inTail) c) := by
  obtain ⟨hacc, hnil, hcur⟩ := h
  by_cases hc : cur = []
  · subst hc
    by_cases hw : pySpace c = true
    · have e : tokStep (acc, ([] : List Char), inTail) c = (acc, [], false) := by
        simp [tokStep, hw]
      rw [e]
      exact ⟨hacc, fun _ => rfl, fun hne => absurd rfl hne⟩
    · have e : tokStep (acc, ([] : List Char), inTail) c = (acc, [c], false) := by
        simp [tokStep, hw]
      rw [e]
      refine ⟨hacc, by simp, fun _ => ⟨[c], [], by simp, by simp, ?_, by simp, fun _ => rfl⟩⟩
      intro d hd
      simp only [List.mem_singleton] at hd
      subst hd
      exact Bool.of_not_eq_true hw
  · have hne : cur.isEmpty = false := by simpa [List.isEmpty_iff] using hc
    obtain ⟨a, b, hab, ha, hanw, hbw, hbt⟩ := hcur hc
    cases inTail with
    | true =>
      by_cases hw : pySpace c = true
      · have e : tokStep (acc, cur, true) c = (acc, cur ++ [c], true) := by
          simp [tokStep, hne, hw]
        rw [e]
        refine ⟨hacc, fun hx => absurd hx (by simp), fun _ => ?_⟩
        refine ⟨a, b ++ [c],
          by rw [show cur = a ++ b from hab, List.append_assoc], ha, hanw, ?_, by simp⟩
        intro d hd
        rcases List.mem_append.mp hd with hd | hd
        · exact hbw d hd
        · simp only [List.mem_singleton] at hd
          subst hd
          exact hw
      · have e : tokStep (acc, cur, true) c = (acc ++ [cur], [c], false) := by
          simp [tokStep, hne, hw]
        rw [e]
        refine ⟨?_, by simp, fun _ => ⟨[c], [], by simp, by simp, ?_, by simp, fun _ => rfl⟩⟩
        · intro t htm
          rcases List.mem_append.mp htm with htm | htm
          · exact hacc t htm
          · simp only [List.mem_singleton] at htm
            subst htm
            exact ⟨a, b, hab, ha, hanw, hbw⟩
        · intro d hd
          simp only [List.mem_singleton] at hd
          subst hd
          exact Bool.of_not_eq_true hw
    | false =>
      have hb : b = [] := hbt rfl
      subst hb
      by_cases hw : pySpace c = true
      · have e : tokStep (acc, cur, false) c = (acc, cur ++ [c], true) := by
          simp [tokStep, hne, hw]
        rw [e]
        refine ⟨hacc, fun hx => absurd hx (by simp), fun _ => ?_⟩
        refine ⟨a, [c], by rw [show cur = a ++ [] from hab]; simp, ha, hanw, ?_, by simp⟩
        intro d hd
        simp only [List.mem_singleton] at hd
        subst hd
        exact hw
      · have e : tokStep (acc, cur, false) c = (acc, cur ++ [c], false) := by
          simp [tokStep, hne, hw]
        rw [e]
        refine ⟨hacc, fun hx => absurd hx (by simp), fun _ => ?_⟩
        refine ⟨a ++ [c], [], by rw [show cur = a ++ [] from hab]; simp, by simp, ?_,
          by simp, fun _ => rfl⟩
        intro d hd
        rcases List.mem_append.mp hd with hd | hd
        · exact hanw d hd
        · simp only [List.mem_singleton] at hd
          subst hd
          exact Bool.of_not_eq_true hw

theorem findTokens_shape (s : List Char) : ∀ t ∈ findTokens s, TokShape t := by
  have h : TokInv (s.foldl tokStep ([], [], false)) := by
    refine foldl_invariant tokStep TokInv (fun _ => True) s (fun _ _ => trivial)
      ([], [], false) ⟨by simp, fun _ => rfl, fun hx => absurd rfl hx⟩ ?_
    intro st a hst _
    obtain ⟨acc, cur, inTail⟩ := st
    exact tokStep_inv acc cur inTail a hst
  obtain ⟨hacc, _, hcur⟩ := h
  intro t ht
  rw [findTokens] at ht
  by_cases h2 : (s.foldl tokStep ([], [], false)).2.1 = []
  · simp only [h2, if_true] at ht
    exact hacc t ht
  · simp only [h2, if_false] at ht
    rcases List.mem_append.mp ht with ht | ht
    · exact hacc t ht
    · simp only [List.mem_singleton] at ht
      subst ht
      obtain ⟨a, b, hab, ha, hanw, hbw, _⟩ := hcur h2
      exact ⟨a, b, hab, ha, hanw, hbw⟩

theorem pyStrip_append_allWs {b : List Char} (hb : ∀ c ∈ b, pySpace c = true) :
    ∀ x, pyStrip (x ++ b) = pyStrip x := by
  induction b using List.reverseRecOn with
  | nil => simp
  | append_singleton b c ih =>
    intro x
    have hc : pySpace c = true := hb c (by simp)
    have hb' : ∀ d ∈ b, pySpace d = true := fun d hd => hb d (by simp [hd])
    rw [show x ++ (b ++ [c]) = (x ++ b) ++ [c] by simp,
      pyStrip_append_ws hc, ih hb']

theorem pyStrip_tokShape {t : List Char} (h : TokShape t) :
    AllNonWs (pyStrip t) ∧ pyStrip t ≠ [] := by
  obtain ⟨a, b, rfl, ha, hanw, hbw⟩ := h
  rw [show a ++ b = a ++ b by rfl, pyStrip_append_allWs hbw, pyStrip_of_allNonWs hanw]
  exact ⟨hanw, ha⟩

theorem findTokens_of_allNonWs_fold (l : List Char) (hl : AllNonWs l) :
    ∀ acc cur, cur ≠ [] →
      l.foldl tokStep (acc, cur, false) = (acc, cur ++ l, false) := by
  induction l with
  | nil => intro acc cur _; simp
  | cons c t ih =>
    intro acc cur hc
    have hne : cur.isEmpty = false := by simpa [List.isEmpty_iff] using hc
    have hw : pySpace c = false := hl c (by simp)
    have e : tokStep (acc, cur, false) c = (acc, cur ++ [c], false) := by
      simp [tokStep, hne, hw]
    rw [List.foldl_cons, e, ih (fun d hd => hl d (by simp [hd])) acc (cur ++ [c]) (by simp)]
    simp

theorem findTokens_of_allNonWs {t : List Char} (ht : t ≠ [])
    (hnw : AllNonWs t) : findTokens t = [t] := by
  obtain ⟨c, rest, rfl⟩ := List.exists_cons_of_ne_nil ht
  have hw : pySpace c = false := hnw c (by simp)
  have e : tokStep ([], [], false) c = ([], [c], false) := by simp [tokStep, hw]
  rw [findTokens, List.foldl_cons, e,
    findTokens_of_allNonWs_fold rest (fun d hd => hnw d (by simp [hd])) [] [c] (by simp)]
  simp

theorem sentStep_content (acc : List (List Char)) (cur : List Char)
    (skip : Bool) (c : Char) (hskip : skip = true → cur = []) :
    filterContent ((sentStep (acc, cur, skip) c).1.flatten ++
        (sentStep (acc, cur, skip) c).2.1) =
      filterContent (acc.flatten ++ cur ++ [c]) ∧
      ((sentStep (acc, cur, skip) c).2.2 = true →
        (sentStep (acc, cur, skip) c).2.1 = []) := by
  cases skip with
  | true =>
    have hc : cur = [] := hskip rfl
    subst hc
    by_cases hw : pySpace c = true
    · have e : sentStep (acc, [], true) c = (acc, [], true) := by simp [sentStep, hw]
      rw [e]
      constructor
      · simp [filterContent_append, filterContent, List.filter,
          keepChar_eq_false_of_ws hw]
      · intro _; rfl
    · have e : sentStep (acc, [], true) c = (acc, [c], false) := by simp [sentStep, hw]
      rw [e]
      exact ⟨by simp, by simp⟩
  | false =>
    by_cases hw : (pySpace c && isSentEnd cur) = true
    · have e : sentStep (acc, cur, false) c = (acc ++ [cur], [], true) := by
        simp [sentStep, hw]
      rw [e]
      have hw2 := hw
      simp only [Bool.and_eq_true] at hw2
      have hws : pySpace c = true := hw2.1
      constructor
      · simp [filterContent_append, filterContent, List.filter,
          keepChar_eq_false_of_ws hws]
      · intro _; rfl
    · have e : sentStep (acc, cur, false) c = (acc, cur ++ [c], false) := by
        simp only [sentStep, if_neg hw]
        simp
      rw [e]
      refine ⟨by simp [filterContent_append], by simp⟩

theorem filterContent_cons (c : Char) (t : List Char) :
    filterContent (c :: t) = filterContent [c] ++ filterContent t := by
  by_cases h : keepChar c = true
  · simp [filterContent, List.filter_cons, h]
  · simp [filterContent, List.filter_cons, Bool.of_not_eq_true h]

theorem sentSplit_fold_content (l : List Char) :
    ∀ acc cur skip, (skip = true → cur = []) →
      filterContent ((l.foldl sentStep (acc, cur, skip)).1.flatten ++
          (l.foldl sentStep (acc, cur, skip)).2.1) =
        filterContent (acc.flatten ++ cur ++ l) := by
  induction l with
  | nil => intro acc cur skip _; simp
  | cons c t ih =>
    intro acc cur skip hskip
    obtain ⟨h1, h2⟩ := sentStep_content acc cur skip c hskip
    rw [List.foldl_cons]
    rcases hst : sentStep (acc, cur, skip) c with ⟨acc2, cur2, skip2⟩
    rw [hst] at h1 h2
    have h3 := ih acc2 cur2 skip2 h2
    rw [h3]
    have h4 : filterContent (acc2.flatten ++ cur2) =
        filterContent ((acc.flatten ++ cur) ++ [c]) := by simpa using h1
    rw [show acc2.flatten ++ cur2 ++ t = (acc2.flatten ++ cur2) ++ t from by simp,
      filterContent_append, h4,
      show acc.flatten ++ cur ++ c :: t = (acc.flatten ++ cur) ++ (c :: t) from by simp,
      filterContent_append, filterContent_append, filterContent_cons]
    simp [filterContent_append, filterContent_cons c t,
      show filterContent ([] : List Char) = [] from rfl]

theorem sentSplit_content (s : List Char) :
    filterContent (sentSplit s).flatten = filterContent s := by
  have h := sentSplit_fold_content s [] [] false (by simp)
  rw [sentSplit]
  simpa [filterContent_append] using h

theorem tokStep_content (acc : List (List Char)) (cur : List Char)
    (inTail : Bool) (c : Char) :
    filterContent ((tokStep (acc, cur, inTail) c).1.flatten ++
        (tokStep (acc, cur, inTail) c).2.1) =
      filterContent (acc.flatten ++ cur ++ [c]) := by
  by_cases hc : cur = []
  · subst hc
    by_cases hw : pySpace c = true
    · have e : tokStep (acc, ([] : List Char), inTail) c = (acc, [], false) := by
        simp [tokStep, hw]
      rw [e]
      simp [filterContent_append, filterContent, List.filter,
        keepChar_eq_false_of_ws hw]
    · have e : tokStep (acc, ([] : List Char), inTail) c = (acc, [c], false) := by
        simp [tokStep, hw]
      rw [e]
      simp
  · have hne : cur.isEmpty = false := by simpa [List.isEmpty_iff] using hc
    cases inTail with
    | true =>
      by_cases hw : pySpace c = true
      · have e : tokStep (acc, cur, true) c = (acc, cur ++ [c], true) := by
          simp [tokStep, hne, hw]
        rw [e]
        simp
      · have e : tokStep (acc, cur, true) c = (acc ++ [cur], [c], false) := by
          simp [tokStep, hne, hw]
        rw [e]
        simp [filterContent_append]
    | false =>
      by_cases hw : pySpace c = true
      · have e : tokStep (acc, cur, false) c = (acc, cur ++ [c], true) := by
          simp [tokStep, hne, hw]
        rw [e]
        simp
      · have e : tokStep (acc, cur, false) c = (acc, cur ++ [c], false) := by
          simp [tokStep, hne, hw]
        rw [e]
        simp

theorem findTokens_fold_content (l : List Char) :
    ∀ acc cur inTail,
      filterContent ((l.foldl tokStep (acc, cur, inTail)).1.flatten ++
          (l.foldl tokStep (acc, cur, inTail)).2.1) =
        filterContent (acc.flatten ++ cur ++ l) := by
  induction l with
  | nil => intro acc cur inTail; simp
  | cons c t ih =>
    intro acc cur inTail
    have h1 := tokStep_content acc cur inTail c
    rw [List.foldl_cons]
    rcases hst : tokStep (acc, cur, inTail) c with ⟨acc2, cur2, inTail2⟩
    rw [hst] at h1
    rw [ih acc2 cur2 inTail2]
    have h4 : filterContent (acc2.flatten ++ cur2) =
        filterContent ((acc.flatten ++ cur) ++ [c]) := by simpa using h1
    rw [show acc2.flatten ++ cur2 ++ t = (acc2.flatten ++ cur2) ++ t from by simp,
      filterContent_append, h4,
      show acc.flatten ++ cur ++ c :: t = (acc.flatten ++ cur) ++ (c :: t) from by simp,
      filterContent_append, filterContent_append, filterContent_cons]
    simp [filterContent_append, filterContent_cons c t,
      show filterContent ([] : List Char) = [] from rfl]

theorem findTokens_content (s : List Char) :
    filterContent (findTokens s).flatten = filterContent s := by
  have h := findTokens_fold_content s [] [] false
  rw [findTokens]
  by_cases h2 : (s.foldl tokStep ([], [], false)).2.1 = []
  · simp only [h2, if_true]
    simpa [h2, filterContent_append] using h
  · simp only [h2, if_false]
    simpa [filterContent_append] using h

/-- Chunk classification used through the comma tier: a chunk either
respects the bound or is whitespace-free (an oversized atomic token). -/
def BoundOrAtomic (maxSize : Nat) (c : List Char) : Prop :=
  c.length ≤ maxSize ∨ AllNonWs c

/-- State invariant of the `_chunk_by_tokens` loop. -/
def CbtInv (maxSize : Nat) (st : List (List Char) × List Char) : Prop :=
  (∀ c ∈ st.1, BoundOrAtomic maxSize c) ∧
    (st.2.length ≤ maxSize ∨ AllNonWs (pyStrip st.2))

theorem chunkByTokensStep_inv {maxSize : Nat} (hmax : 1 ≤ maxSize)
    (st : List (List Char) × List Char) (token : List Char)
    (hst : CbtInv maxSize st) (htok : TokShape token) :
    CbtInv maxSize (chunkByTokensStep maxSize st token) := by
  obtain ⟨chunks, cur⟩ := st
  obtain ⟨hchunks, hcur⟩ := hst
  have hflush : BoundOrAtomic maxSize (pyStrip cur) := by
    rcases hcur with h | h
    · exact Or.inl ((pyStrip_length_le cur).trans h)
    · exact Or.inr h
  by_cases h1 : cur.length + token.length ≤ maxSize
  · have e : chunkByTokensStep maxSize (chunks, cur) token = (chunks, cur ++ token) := by
      simp [chunkByTokensStep, h1]
    rw [e]
    exact ⟨hchunks, Or.inl (by simpa using h1)⟩
  · by_cases h2 : pyStrip cur ≠ []
    · have e : chunkByTokensStep maxSize (chunks, cur) token
          = (chunks ++ [pyStrip cur], token) := by
        simp [chunkByTokensStep, h1, h2]
      rw [e]
      refine ⟨?_, Or.inr (pyStrip_tokShape htok).1⟩
      intro c hc
      rcases List.mem_append.mp hc with hc | hc
      · exact hchunks c hc
      · simp only [List.mem_singleton] at hc
        subst hc
        exact hflush
    · by_cases h3 : token.length ≤ maxSize
      · have e : chunkByTokensStep maxSize (chunks, cur) token = (chunks, token) := by
          simp [chunkByTokensStep, h1, h2, h3]
        rw [e]
        exact ⟨hchunks, Or.inl h3⟩
      · have e : chunkByTokensStep maxSize (chunks, cur) token
            = (chunks ++ (chunksOfList maxSize token).map pyStrip, []) := by
          simp [chunkByTokensStep, h1, h2, h3]
        rw [e]
        refine ⟨?_, Or.inl (by simp)⟩
        intro c hc
        rcases List.mem_append.mp hc with hc | hc
        · exact hchunks c hc
        · obtain ⟨d, hd, rfl⟩ := List.mem_map.mp hc
          exact Or.inl ((pyStrip_length_le d).trans (chunksOfList_bound hmax token d hd))

theorem chunk_by_tokens_bound_or {maxSize : Nat} (hmax : 1 ≤ maxSize)
    (t : List Char) : ∀ c ∈ chunk_by_tokens t maxSize, BoundOrAtomic maxSize c := by
  have h : CbtInv maxSize ((findTokens t).foldl (chunkByTokensStep maxSize) ([], [])) := by
    refine foldl_invariant (chunkByTokensStep maxSize) (CbtInv maxSize) TokShape
      (findTokens t) (findTokens_shape t) ([], [])
      ⟨by simp, Or.inl (by simp)⟩ ?_
    intro st a hst ha
    exact chunkByTokensStep_inv hmax st a hst ha
  obtain ⟨hchunks, hcur⟩ := h
  intro c hc
  rw [chunk_by_tokens] at hc
  by_cases h2 : pyStrip ((findTokens t).foldl (chunkByTokensStep maxSize) ([], [])).2 ≠ []
  · rw [if_pos h2] at hc
    rcases List.mem_append.mp hc with hc | hc
    · exact hchunks c hc
    · simp only [List.mem_singleton] at hc
      subst hc
      rcases hcur with h | h
      · exact Or.inl ((pyStrip_length_le _).trans h)
      · exact Or.inr h
  · rw [if_neg h2] at hc
    exact hchunks c hc

theorem chunk_by_tokens_nil (maxSize : Nat) : chunk_by_tokens [] maxSize = [] := rfl

theorem chunk_by_tokens_of_allNonWs {maxSize : Nat} (hmax : 1 ≤ maxSize)
    {t : List Char} (hnw : AllNonWs t) :
    ∀ c ∈ chunk_by_tokens t maxSize, c.length ≤ maxSize := by
  by_cases ht : t = []
  · subst ht
    simp [chunk_by_tokens_nil]
  · intro c hc
    rw [chunk_by_tokens, findTokens_of_allNonWs ht hnw] at hc
    by_cases h1 : t.length ≤ maxSize
    · have e : [t].foldl (chunkByTokensStep maxSize) ([], []) = ([], t) := by
        simp [chunkByTokensStep, h1]
      have hne : pyStrip t ≠ [] := by
        rw [pyStrip_of_allNonWs hnw]
        exact ht
      rw [e, if_pos hne] at hc
      simp only [List.nil_append, List.mem_singleton] at hc
      subst hc
      rw [pyStrip_of_allNonWs hnw]
      exact h1
    · have e : [t].foldl (chunkByTokensStep maxSize) ([], [])
          = ((chunksOfList maxSize t).map pyStrip, []) := by
        simp [chunkByTokensStep, h1, show pyStrip ([] : List Char) = [] from rfl]
      rw [e, if_neg (show ¬pyStrip ([] : List Char) ≠ [] from fun hx => hx rfl)] at hc
      obtain ⟨d, hd, rfl⟩ := List.mem_map.mp hc
      exact (pyStrip_length_le d).trans (chunksOfList_bound hmax t d hd)

theorem filterContent_flatten_map {f : List Char → List Char}
    (hf : ∀ x, filterContent (f x) = filterContent x) (L : List (List Char)) :
    filterContent (L.map f).flatten = filterContent L.flatten := by
  induction L with
  | nil => rfl
  | cons x xs ih => simp [filterContent_append, hf x, ih]

theorem chunkByTokensStep_content (maxSize : Nat)
    (chunks : List (List Char)) (cur : List Char) (token : List Char) :
    filterContent ((chunkByTokensStep maxSize (chunks, cur) token).1.flatten ++
        (chunkByTokensStep maxSize (chunks, cur) token).2) =
      filterContent (chunks.flatten ++ cur ++ token) := by
  by_cases h1 : cur.length + token.length ≤ maxSize
  · have e : chunkByTokensStep maxSize (chunks, cur) token = (chunks, cur ++ token) := by
      simp [chunkByTokensStep, h1]
    rw [e]
    simp
  · by_cases h2 : pyStrip cur ≠ []
    · have e : chunkByTokensStep maxSize (chunks, cur) token
          = (chunks ++ [pyStrip cur], token) := by
        simp [chunkByTokensStep, h1, h2]
      rw [e]
      simp [filterContent_append, filterContent_pyStrip]
    · have hcur : filterContent cur = [] :=
        filterContent_eq_nil_of_pyStrip_nil (by simpa using h2)
      by_cases h3 : token.length ≤ maxSize
      · have e : chunkByTokensStep maxSize (chunks, cur) token = (chunks, token) := by
          simp [chunkByTokensStep, h1, h2, h3]
        rw [e]
        simp [filterContent_append, hcur]
      · have e : chunkByTokensStep maxSize (chunks, cur) token
            = (chunks ++ (chunksOfList maxSize token).map pyStrip, []) := by
          simp [chunkByTokensStep, h1, h2, h3]
        rw [e]
        simp [filterContent_append, hcur,
          filterContent_flatten_map filterContent_pyStrip,
          chunksOfList_flatten]

theorem chunk_by_tokens_fold_content (maxSize : Nat) (toks : List (List Char)) :
    ∀ chunks cur,
      filterContent ((toks.foldl (chunkByTokensStep maxSize) (chunks, cur)).1.flatten ++
          (toks.foldl (chunkByTokensStep maxSize) (chunks, cur)).2) =
        filterContent (chunks.flatten ++ cur ++ toks.flatten) := by
  induction toks with
  | nil => intro chunks cur; simp
  | cons tok toks ih =>
    intro chunks cur
    have h1 := chunkByTokensStep_content maxSize chunks cur tok
    rw [List.foldl_cons]
    rcases hst : chunkByTokensStep maxSize (chunks, cur) tok with ⟨chunks2, cur2⟩
    rw [hst] at h1
    rw [ih chunks2 cur2]
    have h4 : filterContent (chunks2.flatten ++ cur2) =
        filterContent ((chunks.flatten ++ cur) ++ tok) := by simpa using h1
    rw [show chunks2.flatten ++ cur2 ++ toks.flatten
        = (chunks2.flatten ++ cur2) ++ toks.flatten from by simp,
      filterContent_append, h4]
    simp [filterContent_append]

theorem chunk_by_tokens_content (t : List Char) (maxSize : Nat) :
    filterContent (chunk_by_tokens t maxSize).flatten = filterContent t := by
  rw [chunk_by_tokens]
  have h := chunk_by_tokens_fold_content maxSize (findTokens t) [] []
  rcases hst : (findTokens t).foldl (chunkByTokensStep maxSize) ([], []) with ⟨chunks, cur⟩
  rw [hst] at h
  simp only [List.flatten_nil, List.nil_append] at h
  rw [findTokens_content] at h
  by_cases h2 : pyStrip cur ≠ []
  · rw [if_pos h2,
      show (chunks ++ [pyStrip cur]).flatten = chunks.flatten ++ pyStrip cur from by simp,
      filterContent_append, filterContent_pyStrip, ← filterContent_append]
    exact h
  · rw [if_neg h2]
    have hcur : filterContent cur = [] :=
      filterContent_eq_nil_of_pyStrip_nil (by simpa using h2)
    rw [← h, filterContent_append, hcur]
    simp

/-! ## The comma tier -/

theorem consHead_flatten (x : Char) (L : List (List Char)) :
    (consHead x L).flatten = x :: L.flatten := by
  cases L with
  | nil => simp [consHead]
  | cons h t => simp [consHead]

theorem splitOnPair_ne_nil (a b : Char) (s : List Char) :
    splitOnPair a b s ≠ [] := by
  match s with
  | [] => simp [splitOnPair]
  | [x] => simp [splitOnPair]
  | x :: y :: rest =>
    by_cases h : x = a ∧ y = b
    · simp [splitOnPair, h]
    · simp only [splitOnPair, if_neg h]
      cases hs : splitOnPair a b (y :: rest) with
      | nil => simp [consHead]
      | cons h t => simp [consHead]

theorem splitOnPair_content {a b : Char} (ha : keepChar a = false)
    (hb : keepChar b = false) (s : List Char) :
    filterContent (splitOnPair a b s).flatten = filterContent s := by
  match s with
  | [] => rfl
  | [x] => simp [splitOnPair, filterContent]
  | x :: y :: rest =>
    by_cases h : x = a ∧ y = b
    · obtain ⟨rfl, rfl⟩ := h
      simp only [splitOnPair, and_self, if_true, List.flatten_cons, List.nil_append]
      rw [splitOnPair_content ha hb rest, filterContent_cons,
        filterContent_cons y rest]
      simp [filterContent, List.filter, ha, hb]
    · simp only [splitOnPair, if_neg h, consHead_flatten]
      rw [filterContent_cons, filterContent_cons x (y :: rest),
        splitOnPair_content ha hb (y :: rest)]

theorem flatten_dropLast_getLastD {L : List (List Char)} (h : L ≠ []) :
    L.dropLast.flatten ++ L.getLastD [] = L.flatten := by
  induction L using List.reverseRecOn with
  | nil => exact absurd rfl h
  | append_singleton M x _ => simp

theorem boundOrAtomic_pyRstripWith {maxSize : Nat} (bad : Char → Bool)
    {c : List Char} (h : BoundOrAtomic maxSize c) :
    BoundOrAtomic maxSize (pyRstripWith bad c) := by
  rcases h with h | h
  · exact Or.inl ((pyRstripWith_length_le bad c).trans h)
  · exact Or.inr (allNonWs_pyRstripWith bad h)

/-- State invariant of the `split_by_commas` loop. -/
def SbcInv (maxSize : Nat) (st : List (List Char) × List Char) : Prop :=
  (∀ c ∈ st.1, BoundOrAtomic maxSize c) ∧ BoundOrAtomic maxSize st.2

theorem splitByCommasCore_inv {maxSize : Nat} (hmax : 1 ≤ maxSize)
    (st : List (List Char) × List Char) (segment : List Char)
    (hst : SbcInv maxSize st) : SbcInv maxSize (splitByCommasCore maxSize st segment) := by
  obtain ⟨chunks, cur⟩ := st
  obtain ⟨hchunks, hcur⟩ := hst
  have hst1 : SbcInv maxSize
      (if pyStrip cur ≠ [] then (chunks ++ [pyRstripWith commaSpaceSet cur], ([] : List Char))
       else (chunks, cur)) := by
    by_cases h2 : pyStrip cur ≠ []
    · rw [if_pos h2]
      refine ⟨?_, Or.inl (by simp)⟩
      intro c hc
      rcases List.mem_append.mp hc with hc | hc
      · exact hchunks c hc
      · simp only [List.mem_singleton] at hc
        subst hc
        exact boundOrAtomic_pyRstripWith commaSpaceSet hcur
    · rw [if_neg h2]
      exact ⟨hchunks, hcur⟩
  by_cases h1 : cur.length + segment.length ≤ maxSize
  · have e : splitByCommasCore maxSize (chunks, cur) segment = (chunks, cur ++ segment) := by
      simp [splitByCommasCore, h1]
    rw [e]
    exact ⟨hchunks, Or.inl (by simpa using h1)⟩
  · rcases hst1e : (if pyStrip cur ≠ []
        then (chunks ++ [pyRstripWith commaSpaceSet cur], ([] : List Char))
        else (chunks, cur)) with ⟨chunks1, cur1⟩
    rw [hst1e] at hst1
    by_cases h3 : maxSize < segment.length
    · by_cases h4 : chunk_by_tokens segment maxSize = []
      · have e : splitByCommasCore maxSize (chunks, cur) segment = (chunks1, cur1) := by
          simp [splitByCommasCore, h1, h3, h4, hst1e]
        rw [e]
        exact hst1
      · have e : splitByCommasCore maxSize (chunks, cur) segment
            = (chunks1 ++ (chunk_by_tokens segment maxSize).dropLast.map
                (pyRstripWith commaSpaceSet),
               (chunk_by_tokens segment maxSize).getLastD []) := by
          simp [splitByCommasCore, h1, h3, h4, hst1e]
        rw [e]
        constructor
        · intro c hc
          rcases List.mem_append.mp hc with hc | hc
          · exact hst1.1 c hc
          · obtain ⟨d, hd, rfl⟩ := List.mem_map.mp hc
            have hdm : d ∈ chunk_by_tokens segment maxSize :=
              (List.dropLast_sublist _).subset hd
            exact boundOrAtomic_pyRstripWith commaSpaceSet
              (chunk_by_tokens_bound_or hmax segment d hdm)
        · exact chunk_by_tokens_bound_or hmax segment _ (getLastD_mem' [] h4)
    · have e : splitByCommasCore maxSize (chunks, cur) segment = (chunks1, segment) := by
        simp [splitByCommasCore, h1, h3, hst1e]
      rw [e]
      exact ⟨hst1.1, Or.inl (Nat.le_of_not_lt h3)⟩

theorem split_by_commas_bound {maxSize : Nat} (hmax : 1 ≤ maxSize)
    (text : List Char) : ∀ c ∈ split_by_commas text maxSize, c.length ≤ maxSize := by
  intro c hc
  rw [split_by_commas] at hc
  have hinv : SbcInv maxSize
      ((splitOnPair ',' ' ' text).foldl
        (splitByCommasStep maxSize ((splitOnPair ',' ' ' text).getLastD [])) ([], [])) := by
    refine foldl_invariant _ (SbcInv maxSize) (fun _ => True) _ (fun _ _ => trivial)
      ([], []) ⟨by simp, Or.inl (by simp)⟩ ?_
    intro st a hst _
    exact splitByCommasCore_inv hmax st _ hst
  rcases hr : (splitOnPair ',' ' ' text).foldl
      (splitByCommasStep maxSize ((splitOnPair ',' ' ' text).getLastD [])) ([], [])
    with ⟨chunks, cur⟩
  rw [hr] at hinv hc
  have hchunks2 : ∀ d ∈ (if pyStrip cur ≠ []
      then chunks ++ [pyRstripWith commaSpaceSet cur] else chunks),
      BoundOrAtomic maxSize d := by
    by_cases h2 : pyStrip cur ≠ []
    · rw [if_pos h2]
      intro d hd
      rcases List.mem_append.mp hd with hd | hd
      · exact hinv.1 d hd
      · simp only [List.mem_singleton] at hd
        subst hd
        exact boundOrAtomic_pyRstripWith commaSpaceSet hinv.2
    · rw [if_neg h2]
      exact hinv.1
  have hc2 := List.mem_filter.mp hc
  obtain ⟨l, hl, hcl⟩ := List.mem_flatten.mp hc2.1
  obtain ⟨d, hd, rfl⟩ := List.mem_map.mp hl
  by_cases h3 : maxSize < d.length
  · rw [if_pos h3] at hcl
    rcases hchunks2 d hd with h | h
    · omega
    · exact chunk_by_tokens_of_allNonWs hmax h c hcl
  · rw [if_neg h3] at hcl
    simp only [List.mem_singleton] at hcl
    subst hcl
    exact Nat.le_of_not_lt h3

theorem filterContent_pyRstrip_commaSpace (l : List Char) :
    filterContent (pyRstripWith commaSpaceSet l) = filterContent l :=
  filterContent_pyRstripWith (fun _ h => keepChar_eq_false_of_commaSpace h) l

theorem splitByCommasCore_content (maxSize : Nat)
    (chunks : List (List Char)) (cur : List Char) (segment : List Char) :
    filterContent ((splitByCommasCore maxSize (chunks, cur) segment).1.flatten ++
        (splitByCommasCore maxSize (chunks, cur) segment).2) =
      filterContent (chunks.flatten ++ cur ++ segment) := by
  by_cases h1 : cur.length + segment.length ≤ maxSize
  · have e : splitByCommasCore maxSize (chunks, cur) segment = (chunks, cur ++ segment) := by
      simp [splitByCommasCore, h1]
    rw [e]
    simp
  · by_cases h2 : pyStrip cur ≠ []
    · by_cases h3 : maxSize < segment.length
      · by_cases h4 : chunk_by_tokens segment maxSize = []
        · have e : splitByCommasCore maxSize (chunks, cur) segment
              = (chunks ++ [pyRstripWith commaSpaceSet cur], []) := by
            simp [splitByCommasCore, h1, h2, h3, h4]
          have hseg : filterContent segment = [] := by
            have h5 := chunk_by_tokens_content segment maxSize
            rw [h4] at h5
            simpa using h5.symm
          rw [e]
          simp [filterContent_append, filterContent_pyRstrip_commaSpace, hseg,
            show filterContent ([] : List Char) = [] from rfl]
        · have e : splitByCommasCore maxSize (chunks, cur) segment
              = ((chunks ++ [pyRstripWith commaSpaceSet cur]) ++
                  (chunk_by_tokens segment maxSize).dropLast.map
                    (pyRstripWith commaSpaceSet),
                 (chunk_by_tokens segment maxSize).getLastD []) := by
            simp [splitByCommasCore, h1, h2, h3, h4]
          rw [e]
          have hwc : filterContent
              (((chunk_by_tokens segment maxSize).dropLast.map
                (pyRstripWith commaSpaceSet)).flatten) ++
                filterContent ((chunk_by_tokens segment maxSize).getLastD []) =
              filterContent segment := by
            rw [filterContent_flatten_map filterContent_pyRstrip_commaSpace,
              ← filterContent_append, flatten_dropLast_getLastD h4,
              chunk_by_tokens_content]
          simp only [List.flatten_append, List.flatten_cons, List.flatten_nil,
            List.append_nil, filterContent_append, List.append_assoc]
          rw [hwc, filterContent_pyRstrip_commaSpace]
      · have e : splitByCommasCore maxSize (chunks, cur) segment
            = (chunks ++ [pyRstripWith commaSpaceSet cur], segment) := by
          simp [splitByCommasCore, h1, h2, h3]
        rw [e]
        simp [filterContent_append, filterContent_pyRstrip_commaSpace,
          List.append_assoc]
    · have hcur : filterContent cur = [] :=
        filterContent_eq_nil_of_pyStrip_nil (by simpa using h2)
      by_cases h3 : maxSize < segment.length
      · by_cases h4 : chunk_by_tokens segment maxSize = []
        · have e : splitByCommasCore maxSize (chunks, cur) segment = (chunks, cur) := by
            simp [splitByCommasCore, h1, h2, h3, h4]
          have hseg : filterContent segment = [] := by
            have h5 := chunk_by_tokens_content segment maxSize
            rw [h4] at h5
            simpa using h5.symm
          rw [e]
          simp [filterContent_append, hseg]
        · have e : splitByCommasCore maxSize (chunks, cur) segment
              = (chunks ++ (chunk_by_tokens segment maxSize).dropLast.map
                  (pyRstripWith commaSpaceSet),
                 (chunk_by_tokens segment maxSize).getLastD []) := by
            simp [splitByCommasCore, h1, h2, h3, h4]
          rw [e]
          have hwc : filterContent
              (((chunk_by_tokens segment maxSize).dropLast.map
                (pyRstripWith commaSpaceSet)).flatten) ++
                filterContent ((chunk_by_tokens segment maxSize).getLastD []) =
              filterContent segment := by
            rw [filterContent_flatten_map filterContent_pyRstrip_commaSpace,
              ← filterContent_append, flatten_dropLast_getLastD h4,
              chunk_by_tokens_content]
          simp only [List.flatten_append, filterContent_append, List.append_assoc]
          rw [hwc, hcur]
          simp
      · have e : splitByCommasCore maxSize (chunks, cur) segment
            = (chunks, segment) := by
          simp [splitByCommasCore, h1, h2, h3]
        rw [e]
        simp [filterContent_append, hcur]

theorem splitByCommas_fold_content (maxSize : Nat) (lastPart : List Char)
    (parts : List (List Char)) : ∀ chunks cur,
      filterContent ((parts.foldl (splitByCommasStep maxSize lastPart)
          (chunks, cur)).1.flatten ++
        (parts.foldl (splitByCommasStep maxSize lastPart) (chunks, cur)).2) =
      filterContent (chunks.flatten ++ cur ++
        (parts.map (fun p => if p ≠ lastPart then p ++ [',', ' '] else p)).flatten) := by
  induction parts with
  | nil => intro chunks cur; simp
  | cons part rest ih =>
    intro chunks cur
    rw [List.foldl_cons]
    have hstep : splitByCommasStep maxSize lastPart (chunks, cur) part
        = splitByCommasCore maxSize (chunks, cur)
            (if part ≠ lastPart then part ++ [',', ' '] else part) := rfl
    rcases hst : splitByCommasCore maxSize (chunks, cur)
        (if part ≠ lastPart then part ++ [',', ' '] else part) with ⟨chunks2, cur2⟩
    rw [hstep, hst, ih chunks2 cur2]
    have h1 := splitByCommasCore_content maxSize chunks cur
      (if part ≠ lastPart then part ++ [',', ' '] else part)
    rw [hst] at h1
    simp only [filterContent_append, List.append_assoc] at h1
    simp only [List.map_cons, List.flatten_cons, filterContent_append, List.append_assoc]
    have h2 := congrArg
      (· ++ filterContent (List.map
        (fun p => if p ≠ lastPart then p ++ [',', ' '] else p) rest).flatten) h1
    simpa [List.append_assoc] using h2

theorem filterContent_commaSpace_append (p : List Char) :
    filterContent (p ++ [',', ' ']) = filterContent p := by
  rw [filterContent_append]
  simp [filterContent, List.filter, keepChar, pySpace]

theorem filterContent_map_segments (lastPart : List Char)
    (parts : List (List Char)) :
    filterContent ((parts.map
        (fun p => if p ≠ lastPart then p ++ [',', ' '] else p)).flatten) =
      filterContent parts.flatten := by
  induction parts with
  | nil => rfl
  | cons part rest ih =>
    simp only [List.map_cons, List.flatten_cons, filterContent_append, ih]
    by_cases h : part ≠ lastPart
    · rw [if_pos h, filterContent_commaSpace_append]
    · rw [if_neg h]

theorem flatten_filter_ne_nil (L : List (List Char)) :
    (L.filter (· ≠ [])).flatten = L.flatten := by
  induction L with
  | nil => rfl
  | cons x xs ih =>
    by_cases h : x = []
    · subst h
      simpa [List.filter_cons] using ih
    · simp only [List.filter_cons, List.flatten_cons, ← ih]
      simp [h]

theorem filterContent_flatten_norm (maxSize : Nat) (L : List (List Char)) :
    filterContent ((L.map (fun c =>
        if maxSize < c.length then chunk_by_tokens c maxSize else [c])).flatten).flatten =
      filterContent L.flatten := by
  induction L with
  | nil => rfl
  | cons x xs ih =>
    simp only [List.map_cons, List.flatten_cons, List.flatten_append,
      filterContent_append, ih]
    by_cases h : maxSize < x.length
    · rw [if_pos h, chunk_by_tokens_content]
    · rw [if_neg h]
      simp

theorem split_by_commas_content (text : List Char) (maxSize : Nat) :
    filterContent (split_by_commas text maxSize).flatten = filterContent text := by
  rw [split_by_commas]
  have hfold := splitByCommas_fold_content maxSize
    ((splitOnPair ',' ' ' text).getLastD []) (splitOnPair ',' ' ' text) [] []
  rcases hr : (splitOnPair ',' ' ' text).foldl
      (splitByCommasStep maxSize ((splitOnPair ',' ' ' text).getLastD [])) ([], [])
    with ⟨chunks, cur⟩
  rw [hr] at hfold
  simp only [List.flatten_nil, List.nil_append] at hfold
  rw [filterContent_map_segments, splitOnPair_content
    (by simp [keepChar]) (by simp [keepChar, pySpace]) text] at hfold
  simp only [hr]
  rw [flatten_filter_ne_nil, filterContent_flatten_norm]
  by_cases h2 : pyStrip cur ≠ []
  · rw [if_pos h2]
    rw [show (chunks ++ [pyRstripWith commaSpaceSet cur]).flatten
        = chunks.flatten ++ pyRstripWith commaSpaceSet cur from by simp,
      filterContent_append, filterContent_pyRstrip_commaSpace,
      ← filterContent_append]
    exact hfold
  · rw [if_neg h2]
    have hcur : filterContent cur = [] :=
      filterContent_eq_nil_of_pyStrip_nil (by simpa using h2)
    rw [← hfold, filterContent_append, hcur]
    simp

/-! ## The sentence tier -/

/-- The pending buffer of the sentence/paragraph accumulation loops:
either empty, or a bounded prefix followed by the appended separator. -/
def SepCur (sep : List Char) (maxSize : Nat) (cur : List Char) : Prop :=
  cur = [] ∨ ∃ x, cur = x ++ sep ∧ x.length ≤ maxSize

theorem pyStrip_sepCur_length {sep : List Char} (hsep : ∀ c ∈ sep, pySpace c = true)
    {maxSize : Nat} {cur : List Char} (h : SepCur sep maxSize cur) :
    (pyStrip cur).length ≤ maxSize := by
  rcases h with rfl | ⟨x, rfl, hx⟩
  · simp [pyStrip, pyRstripWith]
  · rw [pyStrip_append_allWs hsep]
    exact (pyStrip_length_le x).trans hx

/-- State invariant of the `split_by_sentences` loop. -/
def SbsInv (maxSize : Nat) (st : List (List Char) × List Char) : Prop :=
  (∀ c ∈ st.1, c.length ≤ maxSize) ∧ SepCur [' '] maxSize st.2

theorem space_sep_ws : ∀ c ∈ [' '], pySpace c = true := by
  intro c hc
  simp only [List.mem_singleton] at hc
  subst hc
  rfl

theorem splitBySentencesStep_inv {maxSize : Nat} (hmax : 1 ≤ maxSize)
    (st : List (List Char) × List Char) (sentence : List Char)
    (hst : SbsInv maxSize st) :
    SbsInv maxSize (splitBySentencesStep maxSize st sentence) := by
  obtain ⟨chunks, cur⟩ := st
  obtain ⟨hchunks, hcur⟩ := hst
  have hst1 : SbsInv maxSize
      (if pyStrip cur ≠ [] then (chunks ++ [pyStrip cur], ([] : List Char))
       else (chunks, cur)) := by
    by_cases h2 : pyStrip cur ≠ []
    · rw [if_pos h2]
      refine ⟨?_, Or.inl rfl⟩
      intro c hc
      rcases List.mem_append.mp hc with hc | hc
      · exact hchunks c hc
      · simp only [List.mem_singleton] at hc
        subst hc
        exact pyStrip_sepCur_length space_sep_ws hcur
    · rw [if_neg h2]
      exact ⟨hchunks, hcur⟩
  rcases hst1e : (if pyStrip cur ≠ [] then (chunks ++ [pyStrip cur], ([] : List Char))
      else (chunks, cur)) with ⟨chunks1, cur1⟩
  rw [hst1e] at hst1
  by_cases h1 : cur.length + sentence.length ≤ maxSize
  · have e : splitBySentencesStep maxSize (chunks, cur) sentence
        = (chunks, cur ++ sentence ++ [' ']) := by
      simp [splitBySentencesStep, h1]
    rw [e]
    refine ⟨hchunks, Or.inr ⟨cur ++ sentence, by simp, by simpa using h1⟩⟩
  · by_cases h3 : maxSize < sentence.length
    · have e : splitBySentencesStep maxSize (chunks, cur) sentence
          = (chunks1 ++ split_by_commas sentence maxSize, cur1) := by
        simp [splitBySentencesStep, h1, h3, hst1e]
      rw [e]
      refine ⟨?_, hst1.2⟩
      intro c hc
      rcases List.mem_append.mp hc with hc | hc
      · exact hst1.1 c hc
      · exact split_by_commas_bound hmax sentence c hc
    · have e : splitBySentencesStep maxSize (chunks, cur) sentence
          = (chunks1, sentence ++ [' ']) := by
        simp [splitBySentencesStep, h1, h3, hst1e]
      rw [e]
      exact ⟨hst1.1, Or.inr ⟨sentence, rfl, Nat.le_of_not_lt h3⟩⟩

theorem split_by_sentences_bound {maxSize : Nat} (hmax : 1 ≤ maxSize)
    (text : List Char) : ∀ c ∈ split_by_sentences text maxSize, c.length ≤ maxSize := by
  intro c hc
  rw [split_by_sentences] at hc
  have hinv : SbsInv maxSize
      ((sentSplit text).foldl (splitBySentencesStep maxSize) ([], [])) := by
    refine foldl_invariant _ (SbsInv maxSize) (fun _ => True) _ (fun _ _ => trivial)
      ([], []) ⟨by simp, Or.inl rfl⟩ ?_
    intro st a hst _
    exact splitBySentencesStep_inv hmax st a hst
  rcases hr : (sentSplit text).foldl (splitBySentencesStep maxSize) ([], [])
    with ⟨chunks, cur⟩
  rw [hr] at hinv hc
  by_cases h2 : pyStrip cur ≠ []
  · rw [if_pos h2] at hc
    rcases List.mem_append.mp hc with hc | hc
    · exact hinv.1 c hc
    · simp only [List.mem_singleton] at hc
      subst hc
      exact pyStrip_sepCur_length space_sep_ws hinv.2
  · rw [if_neg h2] at hc
    exact hinv.1 c hc

theorem splitBySentencesStep_content (maxSize : Nat)
    (chunks : List (List Char)) (cur : List Char) (sentence : List Char) :
    filterContent ((splitBySentencesStep maxSize (chunks, cur) sentence).1.flatten ++
        (splitBySentencesStep maxSize (chunks, cur) sentence).2) =
      filterContent (chunks.flatten ++ cur ++ sentence) := by
  have hspace : filterContent [' '] = [] := by
    simp [filterContent, List.filter, keepChar, pySpace]
  by_cases h1 : cur.length + sentence.length ≤ maxSize
  · have e : splitBySentencesStep maxSize (chunks, cur) sentence
        = (chunks, cur ++ sentence ++ [' ']) := by
      simp [splitBySentencesStep, h1]
    rw [e]
    simp [filterContent_append, hspace, List.append_assoc]
  · by_cases h2 : pyStrip cur ≠ []
    · by_cases h3 : maxSize < sentence.length
      · have e : splitBySentencesStep maxSize (chunks, cur) sentence
            = ((chunks ++ [pyStrip cur]) ++ split_by_commas sentence maxSize, []) := by
          simp [splitBySentencesStep, h1, h2, h3]
        rw [e]
        simp only [List.flatten_append, List.flatten_cons, List.flatten_nil,
          List.append_nil, filterContent_append, List.append_assoc]
        rw [filterContent_pyStrip, split_by_commas_content]
      · have e : splitBySentencesStep maxSize (chunks, cur) sentence
            = (chunks ++ [pyStrip cur], sentence ++ [' ']) := by
          simp [splitBySentencesStep, h1, h2, h3]
        rw [e]
        simp [filterContent_append, filterContent_pyStrip, hspace, List.append_assoc]
    · have hcur : filterContent cur = [] :=
        filterContent_eq_nil_of_pyStrip_nil (by simpa using h2)
      by_cases h3 : maxSize < sentence.length
      · have e : splitBySentencesStep maxSize (chunks, cur) sentence
            = (chunks ++ split_by_commas sentence maxSize, cur) := by
          simp [splitBySentencesStep, h1, h2, h3]
        rw [e]
        simp only [List.flatten_append, filterContent_append, List.append_assoc]
        rw [split_by_commas_content, hcur]
        simp
      · have e : splitBySentencesStep maxSize (chunks, cur) sentence
            = (chunks, sentence ++ [' ']) := by
          simp [splitBySentencesStep, h1, h2, h3]
        rw [e]
        simp [filterContent_append, hcur, hspace]

theorem splitBySentences_fold_content (maxSize : Nat)
    (sentences : List (List Char)) : ∀ chunks cur,
      filterContent ((sentences.foldl (splitBySentencesStep maxSize)
          (chunks, cur)).1.flatten ++
        (sentences.foldl (splitBySentencesStep maxSize) (chunks, cur)).2) =
      filterContent (chunks.flatten ++ cur ++ sentences.flatten) := by
  induction sentences with
  | nil => intro chunks cur; simp
  | cons sentence rest ih =>
    intro chunks cur
    rw [List.foldl_cons]
    rcases hst : splitBySentencesStep maxSize (chunks, cur) sentence
      with ⟨chunks2, cur2⟩
    rw [ih chunks2 cur2]
    have h1 := splitBySentencesStep_content maxSize chunks cur sentence
    rw [hst] at h1
    simp only [filterContent_append, List.append_assoc] at h1
    simp only [List.flatten_cons, filterContent_append, List.append_assoc]
    have h2 := congrArg (· ++ filterContent rest.flatten) h1
    simpa [List.append_assoc] using h2

theorem split_by_sentences_content (text : List Char) (maxSize : Nat) :
    filterContent (split_by_sentences text maxSize).flatten = filterContent text := by
  rw [split_by_sentences]
  have hfold := splitBySentences_fold_content maxSize (sentSplit text) [] []
  rcases hr : (sentSplit text).foldl (splitBySentencesStep maxSize) ([], [])
    with ⟨chunks, cur⟩
  rw [hr] at hfold
  simp only [List.flatten_nil, List.nil_append] at hfold
  rw [sentSplit_content] at hfold
  simp only [hr]
  by_cases h2 : pyStrip cur ≠ []
  · rw [if_pos h2,
      show (chunks ++ [pyStrip cur]).flatten = chunks.flatten ++ pyStrip cur from by simp,
      filterContent_append, filterContent_pyStrip, ← filterContent_append]
    exact hfold
  · rw [if_neg h2]
    have hcur : filterContent cur = [] :=
      filterContent_eq_nil_of_pyStrip_nil (by simpa using h2)
    rw [← hfold, filterContent_append, hcur]
    simp

/-! ## The paragraph tier (top level) -/

/-- State invariant of the `split_text_intelligently` loop. -/
def StiInv (maxSize : Nat) (st : List (List Char) × List Char) : Prop :=
  (∀ c ∈ st.1, c.length ≤ maxSize) ∧ SepCur ['\n', '\n'] maxSize st.2

theorem newline_sep_ws : ∀ c ∈ ['\n', '\n'], pySpace c = true := by
  intro c hc
  simp only [List.mem_cons, List.mem_singleton] at hc
  rcases hc with rfl | rfl | h
  · rfl
  · rfl
  · simp at h

theorem splitTextStep_inv {maxSize : Nat} (hmax : 1 ≤ maxSize)
    (st : List (List Char) × List Char) (paragraph : List Char)
    (hst : StiInv maxSize st) :
    StiInv maxSize (splitTextStep maxSize st paragraph) := by
  obtain ⟨chunks, cur⟩ := st
  obtain ⟨hchunks, hcur⟩ := hst
  have hst1 : StiInv maxSize
      (if pyStrip cur ≠ [] then (chunks ++ [pyStrip cur], ([] : List Char))
       else (chunks, cur)) := by
    by_cases h2 : pyStrip cur ≠ []
    · rw [if_pos h2]
      refine ⟨?_, Or.inl rfl⟩
      intro c hc
      rcases List.mem_append.mp hc with hc | hc
      · exact hchunks c hc
      · simp only [List.mem_singleton] at hc
        subst hc
        exact pyStrip_sepCur_length newline_sep_ws hcur
    · rw [if_neg h2]
      exact ⟨hchunks, hcur⟩
  rcases hst1e : (if pyStrip cur ≠ [] then (chunks ++ [pyStrip cur], ([] : List Char))
      else (chunks, cur)) with ⟨chunks1, cur1⟩
  rw [hst1e] at hst1
  by_cases h1 : cur.length + paragraph.length ≤ maxSize
  · have e : splitTextStep maxSize (chunks, cur) paragraph
        = (chunks, cur ++ paragraph ++ ['\n', '\n']) := by
      simp [splitTextStep, h1]
    rw [e]
    exact ⟨hchunks, Or.inr ⟨cur ++ paragraph, by simp, by simpa using h1⟩⟩
  · by_cases h3 : maxSize < paragraph.length
    · have e : splitTextStep maxSize (chunks, cur) paragraph
          = (chunks1 ++ split_by_sentences paragraph maxSize, cur1) := by
        simp [splitTextStep, h1, h3, hst1e]
      rw [e]
      refine ⟨?_, hst1.2⟩
      intro c hc
      rcases List.mem_append.mp hc with hc | hc
      · exact hst1.1 c hc
      · exact split_by_sentences_bound hmax paragraph c hc
    · have e : splitTextStep maxSize (chunks, cur) paragraph
          = (chunks1, paragraph ++ ['\n', '\n']) := by
        simp [splitTextStep, h1, h3, hst1e]
      rw [e]
      exact ⟨hst1.1, Or.inr ⟨paragraph, rfl, Nat.le_of_not_lt h3⟩⟩

theorem splitTextStep_content (maxSize : Nat)
    (chunks : List (List Char)) (cur : List Char) (paragraph : List Char) :
    filterContent ((splitTextStep maxSize (chunks, cur) paragraph).1.flatten ++
        (splitTextStep maxSize (chunks, cur) paragraph).2) =
      filterContent (chunks.flatten ++ cur ++ paragraph) := by
  have hnl : filterContent ['\n', '\n'] = [] := by
    simp [filterContent, List.filter, keepChar, pySpace]
  by_cases h1 : cur.length + paragraph.length ≤ maxSize
  · have e : splitTextStep maxSize (chunks, cur) paragraph
        = (chunks, cur ++ paragraph ++ ['\n', '\n']) := by
      simp [splitTextStep, h1]
    rw [e]
    simp [filterContent_append, hnl, List.append_assoc]
  · by_cases h2 : pyStrip cur ≠ []
    · by_cases h3 : maxSize < paragraph.length
      · have e : splitTextStep maxSize (chunks, cur) paragraph
            = ((chunks ++ [pyStrip cur]) ++ split_by_sentences paragraph maxSize, []) := by
          simp [splitTextStep, h1, h2, h3]
        rw [e]
        simp only [List.flatten_append, List.flatten_cons, List.flatten_nil,
          List.append_nil, filterContent_append, List.append_assoc]
        rw [filterContent_pyStrip, split_by_sentences_content]
      · have e : splitTextStep maxSize (chunks, cur) paragraph
            = (chunks ++ [pyStrip cur], paragraph ++ ['\n', '\n']) := by
          simp [splitTextStep, h1, h2, h3]
        rw [e]
        simp [filterContent_append, filterContent_pyStrip, hnl, List.append_assoc]
    · have hcur : filterContent cur = [] :=
        filterContent_eq_nil_of_pyStrip_nil (by simpa using h2)
      by_cases h3 : maxSize < paragraph.length
      · have e : splitTextStep maxSize (chunks, cur) paragraph
            = (chunks ++ split_by_sentences paragraph maxSize, cur) := by
          simp [splitTextStep, h1, h2, h3]
        rw [e]
        simp only [List.flatten_append, filterContent_append, List.append_assoc]
        rw [split_by_sentences_content, hcur]
        simp
      · have e : splitTextStep maxSize (chunks, cur) paragraph
            = (chunks, paragraph ++ ['\n', '\n']) := by
          simp [splitTextStep, h1, h2, h3]
        rw [e]
        simp [filterContent_append, hcur, hnl]

theorem splitText_fold_content (maxSize : Nat)
    (paragraphs : List (List Char)) : ∀ chunks cur,
      filterContent ((paragraphs.foldl (splitTextStep maxSize)
          (chunks, cur)).1.flatten ++
        (paragraphs.foldl (splitTextStep maxSize) (chunks, cur)).2) =
      filterContent (chunks.flatten ++ cur ++ paragraphs.flatten) := by
  induction paragraphs with
  | nil => intro chunks cur; simp
  | cons paragraph rest ih =>
    intro chunks cur
    rw [List.foldl_cons]
    rcases hst : splitTextStep maxSize (chunks, cur) paragraph with ⟨chunks2, cur2⟩
    rw [ih chunks2 cur2]
    have h1 := splitTextStep_content maxSize chunks cur paragraph
    rw [hst] at h1
    simp only [filterContent_append, List.append_assoc] at h1
    simp only [List.flatten_cons, filterContent_append, List.append_assoc]
    have h2 := congrArg (· ++ filterContent rest.flatten) h1
    simpa [List.append_assoc] using h2

theorem split_text_intelligently_bound {maxSize : Nat} (hmax : 1 ≤ maxSize)
    (text : List Char) :
    ∀ c ∈ split_text_intelligently text maxSize, c.length ≤ maxSize := by
  intro c hc
  rw [split_text_intelligently] at hc
  have hinv : StiInv maxSize
      ((splitOnPair '\n' '\n' text).foldl (splitTextStep maxSize) ([], [])) := by
    refine foldl_invariant _ (StiInv maxSize) (fun _ => True) _ (fun _ _ => trivial)
      ([], []) ⟨by simp, Or.inl rfl⟩ ?_
    intro st a hst _
    exact splitTextStep_inv hmax st a hst
  rcases hr : (splitOnPair '\n' '\n' text).foldl (splitTextStep maxSize) ([], [])
    with ⟨chunks, cur⟩
  rw [hr] at hinv hc
  by_cases h2 : pyStrip cur ≠ []
  · rw [if_pos h2] at hc
    rcases List.mem_append.mp hc with hc | hc
    · exact hinv.1 c hc
    · simp only [List.mem_singleton] at hc
      subst hc
      exact pyStrip_sepCur_length newline_sep_ws hinv.2
  · rw [if_neg h2] at hc
    exact hinv.1 c hc

theorem split_text_intelligently_content (text : List Char) (maxSize : Nat) :
    filterContent (split_text_intelligently text maxSize).flatten
      = filterContent text := by
  rw [split_text_intelligently]
  have hfold := splitText_fold_content maxSize (splitOnPair '\n' '\n' text) [] []
  rcases hr : (splitOnPair '\n' '\n' text).foldl (splitTextStep maxSize) ([], [])
    with ⟨chunks, cur⟩
  rw [hr] at hfold
  simp only [List.flatten_nil, List.nil_append] at hfold
  rw [splitOnPair_content
    (keepChar_eq_false_of_ws (show pySpace '\n' = true from rfl))
    (keepChar_eq_false_of_ws (show pySpace '\n' = true from rfl)) text] at hfold
  simp only [hr]
  by_cases h2 : pyStrip cur ≠ []
  · rw [if_pos h2,
      show (chunks ++ [pyStrip cur]).flatten = chunks.flatten ++ pyStrip cur from by simp,
      filterContent_append, filterContent_pyStrip, ← filterContent_append]
    exact hfold
  · rw [if_neg h2]
    have hcur : filterContent cur = [] :=
      filterContent_eq_nil_of_pyStrip_nil (by simpa using h2)
    rw [← hfold, filterContent_append, hcur]
    simp

/-! ## Claims about the text segmenter -/

/-- C1: for every input text and every `max_chunk_size ≥ 1`, every chunk
returned by `split_text_intelligently` has length `≤ max_chunk_size`.
Oversized atomic tokens are decomposed by the character-level fallback of
tier 4 (and re-decomposed by the normalization pass of the comma tier),
so the bound holds unconditionally on the final output. -/
theorem claim_C1 (text : List Char) (maxSize : Nat) (hmax : 1 ≤ maxSize) :
    ∀ c ∈ split_text_intelligently text maxSize, c.length ≤ maxSize :=
  split_text_intelligently_bound hmax text

theorem claim_C1_witness :
    1 ≤ 15 ∧ ∀ c ∈ split_text_intelligently
      ("Hello world. This is a test.".toList) 15, c.length ≤ 15 :=
  ⟨by decide, claim_C1 ("Hello world. This is a test.".toList) 15 (by decide)⟩

/-- C2 counterexample: the claimed conservation invariant fails.  The
input `"aa,\tbbbbbb"` contains no `", "` comma-space separator at all
(its single comma is followed by a tab), so under the claim every
non-whitespace character — including that comma — would have to survive
into the concatenated output.  But with `max_chunk_size = 5` the comma
tier flushes the intermediate chunk `"aa,"` through `rstrip(', ')`,
which deletes the comma: the output is `["aa", "bbbbb", "b"]`. -/
theorem claim_C2_counterexample :
    splitOnPair ',' ' ' ("aa,\tbbbbbb".toList) = ["aa,\tbbbbbb".toList] ∧
      filterNonWs (split_text_intelligently ("aa,\tbbbbbb".toList) 5).flatten ≠
        filterNonWs ("aa,\tbbbbbb".toList) := by decide

/-- C2 amended: for every input text and `max_chunk_size ≥ 1`, the
concatenation of the chunks returned by `split_text_intelligently`
reproduces every non-whitespace, non-comma character of the input
exactly once and in order; besides the whitespace separators, commas
(whether or not they are part of a `", "` separator) may additionally be
elided at chunk boundaries by the `rstrip(', ')` applied to flushed
chunks. -/
theorem claim_C2_amended (text : List Char) (maxSize : Nat) (hmax : 1 ≤ maxSize) :
    filterContent (split_text_intelligently text maxSize).flatten
      = filterContent text :=
  split_text_intelligently_content text maxSize

theorem claim_C2_amended_witness :
    1 ≤ 4 ∧ filterContent
        (split_text_intelligently ("ab cd. ef".toList) 4).flatten
      = filterContent ("ab cd. ef".toList) :=
  ⟨by decide, claim_C2_amended ("ab cd. ef".toList) 4 (by decide)⟩

set_option maxRecDepth 100000 in
/-- C9: a single whitespace-free token of 300 identical characters with
`max_chunk_size = 100` is decomposed by the tier-4 character-level
fallback into exactly 3 chunks of 100 characters each. -/
theorem claim_C9 :
    split_text_intelligently (List.replicate 300 'a') 100 =
      [List.replicate 100 'a', List.replicate 100 'a', List.replicate 100 'a'] := by
  decide

/-! ## Claims about the container-level assembler -/

/-- A chunk whose payload cannot be extracted contributes nothing:
assembly of the remaining chunks is unchanged. -/
theorem assemble_skip {c : List Nat} (hc : extract_chunk_audio c = none)
    (l1 l2 : List (List Nat)) :
    assemble_containers (l1 ++ c :: l2) = assemble_containers (l1 ++ l2) := by
  have hpay : (l1 ++ c :: l2).filterMap extract_chunk_audio
      = (l1 ++ l2).filterMap extract_chunk_audio := by
    simp [List.filterMap_append, List.filterMap_cons, hc]
  rw [assemble_containers, assemble_containers, hpay]

/-- The assembler fails exactly when no chunk yields extractable audio. -/
theorem assemble_none_iff (cs : List (List Nat)) :
    assemble_containers cs = none ↔ ∀ c ∈ cs, extract_chunk_audio c = none := by
  rw [assemble_containers]
  by_cases he : (cs.filterMap extract_chunk_audio).isEmpty
  · rw [if_pos he]
    simp only [true_iff]
    exact List.filterMap_eq_nil_iff.mp (List.isEmpty_iff.mp he)
  · rw [if_neg he]
    exact ⟨fun hs => absurd hs (by simp),
      fun hall => absurd (List.isEmpty_iff.mpr
        (List.filterMap_eq_nil_iff.mpr hall)) he⟩

/-- A concrete container with 1000 PCM payload bytes: RIFF magic, 28
filler header bytes, the `data` tag, a 4-byte size field, payload. -/
def wav_a : List Nat :=
  riffMagic ++ List.replicate 28 1 ++ dataTag ++ [0, 0, 0, 0] ++ List.replicate 1000 7

/-- A concrete container with 2000 PCM payload bytes. -/
def wav_b : List Nat :=
  riffMagic ++ List.replicate 28 1 ++ dataTag ++ [0, 0, 0, 0] ++ List.replicate 2000 9

theorem padded_length_even (l : List Nat) :
    (if l.length % 2 = 1 then l ++ [0] else l).length % 2 = 0 := by
  by_cases h : l.length % 2 = 1
  · rw [if_pos h]
    simp only [List.length_append, List.length_cons, List.length_nil]
    omega
  · rw [if_neg h]
    omega

theorem extract_wav_a : extract_chunk_audio wav_a = some (List.replicate 1000 7) := by
  have hlen : wav_a.length = 1040 := by
    rw [wav_a]
    simp only [List.length_append, List.length_replicate, riffMagic, dataTag,
      List.length_cons, List.length_nil]
  have hdrop : wav_a.drop 40 = List.replicate 1000 7 := by
    rw [wav_a, show (40 : Nat)
        = (riffMagic ++ List.replicate 28 1 ++ dataTag ++ [0, 0, 0, 0]).length from by
      simp only [List.length_append, List.length_replicate, riffMagic, dataTag,
        List.length_cons, List.length_nil]]
    exact List.drop_left _ _
  rw [extract_chunk_audio,
    if_pos (show riffMagic.isPrefixOf wav_a = true from by decide),
    show findSub dataTag wav_a = some 32 from by decide]
  simp only []
  rw [if_neg (by omega : ¬wav_a.length ≤ 32 + 8)]
  exact congrArg some hdrop

theorem extract_wav_b : extract_chunk_audio wav_b = some (List.replicate 2000 9) := by
  have hlen : wav_b.length = 2040 := by
    rw [wav_b]
    simp only [List.length_append, List.length_replicate, riffMagic, dataTag,
      List.length_cons, List.length_nil]
  have hdrop : wav_b.drop 40 = List.replicate 2000 9 := by
    rw [wav_b, show (40 : Nat)
        = (riffMagic ++ List.replicate 28 1 ++ dataTag ++ [0, 0, 0, 0]).length from by
      simp only [List.length_append, List.length_replicate, riffMagic, dataTag,
        List.length_cons, List.length_nil]]
    exact List.drop_left _ _
  rw [extract_chunk_audio,
    if_pos (show riffMagic.isPrefixOf wav_b = true from by decide),
    show findSub dataTag wav_b = some 32 from by decide]
  simp only []
  rw [if_neg (by omega : ¬wav_b.length ≤ 32 + 8)]
  exact congrArg some hdrop

/-- The assembler's output on a non-empty extracted payload list,
stated without evaluating the payloads. -/
theorem assemble_containers_eq (cs ps : List (List Nat))
    (hp : cs.filterMap extract_chunk_audio = ps) (hne : ps ≠ []) :
    assemble_containers cs =
      some (mkWavHeader
        (if ps.flatten.length % 2 = 1 then ps.flatten ++ [0] else ps.flatten).length,
        if ps.flatten.length % 2 = 1 then ps.flatten ++ [0] else ps.flatten) := by
  rw [assemble_containers, hp,
    if_neg (by simpa [List.isEmpty_iff] using hne)]

theorem assemble_wav_ab :
    assemble_containers [wav_a, wav_b]
      = some (mkWavHeader 3000, List.replicate 1000 7 ++ List.replicate 2000 9) := by
  have hpay : [wav_a, wav_b].filterMap extract_chunk_audio
      = [List.replicate 1000 7, List.replicate 2000 9] := by
    rw [List.filterMap_cons, extract_wav_a, List.filterMap_cons, extract_wav_b,
      List.filterMap_nil]
  have hflat : ([List.replicate 1000 (7 : Nat), List.replicate 2000 9]).flatten
      = List.replicate 1000 7 ++ List.replicate 2000 9 := by
    rw [List.flatten_cons, List.flatten_cons, List.flatten_nil, List.append_nil]
  have hlen : (List.replicate 1000 (7 : Nat) ++ List.replicate 2000 9).length = 3000 := by
    rw [List.length_append, List.length_replicate, List.length_replicate]
  rw [assemble_containers_eq [wav_a, wav_b]
      [List.replicate 1000 7, List.replicate 2000 9] hpay (by exact List.cons_ne_nil _ _),
    hflat, hlen, if_neg (by norm_num : ¬((3000 : Nat) % 2 = 1)), hlen]

/-- C5: every emitted WAV container satisfies the header relations
`riff_size = 36 + data_size`,
`byte_rate = sample_rate * channels * bits_per_sample / 8` and
`block_align = channels * bits_per_sample / 8`, with `data_size` equal
to the (even, post-padding) combined payload length; concretely,
splicing containers with 1000 and 2000 payload bytes yields
`data_size = 3000` and `riff_size = 3036`. -/
theorem claim_C5 :
    (∀ (cs : List (List Nat)) (h : WavHeader) (p : List Nat),
      assemble_containers cs = some (h, p) →
        h.riffSize = 36 + h.dataSize ∧
        h.byteRate = h.sampleRate * h.numChannels * h.bitsPerSample / 8 ∧
        h.blockAlign = h.numChannels * h.bitsPerSample / 8 ∧
        h.dataSize = p.length ∧ p.length % 2 = 0) ∧
    (assemble_containers [wav_a, wav_b]).map
      (fun r => (r.1.dataSize, r.1.riffSize)) = some (3000, 3036) := by
  constructor
  · intro cs h p hs
    rw [assemble_containers] at hs
    by_cases he : (cs.filterMap extract_chunk_audio).isEmpty
    · rw [if_pos he] at hs
      exact absurd hs (by simp)
    · rw [if_neg he] at hs
      have hs2 := Option.some.injEq _ _ ▸ hs
      obtain ⟨hh, hp⟩ := Prod.mk.injEq _ _ _ _ ▸ hs2.symm
      subst hp
      subst hh
      refine ⟨rfl, rfl, rfl, rfl, padded_length_even _⟩
  · rw [assemble_wav_ab]
    rfl

theorem claim_C5_witness :
    assemble_containers [wav_a, wav_b]
        = some (mkWavHeader 3000,
            List.replicate 1000 7 ++ List.replicate 2000 9) ∧
      (mkWavHeader 3000).riffSize = 36 + (mkWavHeader 3000).dataSize ∧
      (mkWavHeader 3000).byteRate = (mkWavHeader 3000).sampleRate *
        (mkWavHeader 3000).numChannels * (mkWavHeader 3000).bitsPerSample / 8 ∧
      (mkWavHeader 3000).blockAlign = (mkWavHeader 3000).numChannels *
        (mkWavHeader 3000).bitsPerSample / 8 ∧
      (mkWavHeader 3000).dataSize =
        (List.replicate 1000 7 ++ List.replicate 2000 9).length ∧
      (List.replicate 1000 7 ++ (List.replicate 2000 9 : List Nat)).length % 2 = 0 := by
  have he : assemble_containers [wav_a, wav_b]
      = some (mkWavHeader 3000, List.replicate 1000 7 ++ List.replicate 2000 9) :=
    assemble_wav_ab
  have hrel := claim_C5.1 [wav_a, wav_b] (mkWavHeader 3000)
    (List.replicate 1000 7 ++ List.replicate 2000 9) he
  exact ⟨he, hrel.1, hrel.2.1, hrel.2.2.1, hrel.2.2.2.1, hrel.2.2.2.2⟩

/-- C6: a chunk that claims RIFF framing but whose `data` marker cannot
be located is skipped and assembly of the remaining chunks continues
unchanged; and the whole operation fails (returns `none`, modelling the
raised exception) precisely when zero chunks yield extractable audio. -/
theorem claim_C6 :
    (∀ (l1 l2 : List (List Nat)) (c : List Nat),
      riffMagic.isPrefixOf c = true → findSub dataTag c = none →
        assemble_containers (l1 ++ c :: l2) = assemble_containers (l1 ++ l2)) ∧
    (∀ cs : List (List Nat),
      assemble_containers cs = none ↔ ∀ c ∈ cs, extract_chunk_audio c = none) := by
  constructor
  · intro l1 l2 c h1 h2
    exact assemble_skip (by simp [extract_chunk_audio, h1, h2]) l1 l2
  · exact assemble_none_iff

theorem claim_C6_witness :
    assemble_containers ([] ++ riffMagic :: [[5]])
      = assemble_containers ([] ++ [[5]]) :=
  claim_C6.1 [] [[5]] riffMagic (by decide) (by decide)

/-- C10: for a container with the RIFF magic whose first `data` tag
occurrence is at index `p`, the extracted payload is exactly the bytes
from `p + 8` to the end (independent of the declared size field); when
`p + 8` is at or past the end of the container, the chunk is skipped
exactly like a malformed one, contributing no bytes to the assembly. -/
theorem claim_C10 :
    ∀ (c : List Nat) (p : Nat), riffMagic.isPrefixOf c = true →
      findSub dataTag c = some p →
      (p + 8 < c.length → extract_chunk_audio c = some (c.drop (p + 8))) ∧
      (c.length ≤ p + 8 → ∀ l1 l2,
        assemble_containers (l1 ++ c :: l2) = assemble_containers (l1 ++ l2)) := by
  intro c p h1 h2
  constructor
  · intro h3
    simp [extract_chunk_audio, h1, h2, Nat.not_le.mpr h3]
  · intro h3 l1 l2
    exact assemble_skip (by simp [extract_chunk_audio, h1, h2, h3]) l1 l2

theorem claim_C10_witness :
    extract_chunk_audio (riffMagic ++ dataTag ++ [1, 2, 3, 4, 5])
      = some ((riffMagic ++ dataTag ++ [1, 2, 3, 4, 5]).drop 12) :=
  (claim_C10 (riffMagic ++ dataTag ++ [1, 2, 3, 4, 5]) 4 (by decide)
    (by decide)).1 (by decide)

/-- Inserting an element whose key is strictly below every key of a
sorted list leaves it at the front. -/
theorem insertByFst_of_lt (x : Nat × List Nat) (l : List (Nat × List Nat))
    (h : ∀ y ∈ l, x.1 < y.1) : insertByFst x l = x :: l := by
  cases l with
  | nil => rfl
  | cons y ys =>
    rw [insertByFst, if_pos (h y (by simp))]

/-- Sorting a list whose keys are already strictly increasing is the
identity. -/
theorem sortByFst_eq_self {l : List (Nat × List Nat)}
    (h : List.Pairwise (fun p q => p.1 < q.1) l) : sortByFst l = l := by
  induction l with
  | nil => rfl
  | cons x xs ih =>
    rw [List.pairwise_cons] at h
    have hs : sortByFst (x :: xs) = insertByFst x (sortByFst xs) := rfl
    rw [hs, ih h.2, insertByFst_of_lt x xs h.1]

theorem enumFrom_filterMap_ge (outcomes : List (Option (List Nat))) :
    ∀ n q, q ∈ (List.enumFrom n outcomes).filterMap
        (fun p => p.2.map (fun bs => (p.1, bs))) → n ≤ q.1 := by
  induction outcomes with
  | nil => intro n q hq; simp [List.enumFrom] at hq
  | cons o rest ih =>
    intro n q hq
    rw [List.enumFrom, List.filterMap_cons] at hq
    cases o with
    | none => exact Nat.le_of_succ_le (ih (n + 1) q (by simpa using hq))
    | some b =>
      simp only [Option.map_some] at hq
      rcases List.mem_cons.mp hq with rfl | hq
      · exact Nat.le_refl n
      · exact Nat.le_of_succ_le (ih (n + 1) q hq)

theorem enumFrom_filterMap_pairwise (outcomes : List (Option (List Nat))) :
    ∀ n, List.Pairwise (fun p q => p.1 < q.1)
      ((List.enumFrom n outcomes).filterMap
        (fun p => p.2.map (fun bs => (p.1, bs)))) := by
  induction outcomes with
  | nil => intro n; simp [List.enumFrom]
  | cons o rest ih =>
    intro n
    rw [List.enumFrom, List.filterMap_cons]
    cases o with
    | none => exact ih (n + 1)
    | some b =>
      exact List.pairwise_cons.mpr
        ⟨fun q hq => enumFrom_filterMap_ge rest (n + 1) q hq, ih (n + 1)⟩

theorem enumFrom_filterMap_map_snd (outcomes : List (Option (List Nat))) :
    ∀ n, ((List.enumFrom n outcomes).filterMap
        (fun p => p.2.map (fun bs => (p.1, bs)))).map Prod.snd
      = outcomes.filterMap id := by
  induction outcomes with
  | nil => intro n; simp [List.enumFrom]
  | cons o rest ih =>
    intro n
    rw [List.enumFrom, List.filterMap_cons]
    cases o with
    | none => exact ih (n + 1)
    | some b => exact congrArg (List.cons b) (ih (n + 1))

/-- C7: when some chunk syntheses fail and others succeed, the pipeline
drops the failed chunks and assembles the surviving payloads in their
original relative order (ascending original chunk index) — the
sort-by-index is the identity on the already index-ordered results, so
the pipeline coincides with assembling the successes in input order.
Provided every successful synthesis yields extractable audio (as the
engine's WAV output always does), the pipeline fails as a whole exactly
when no chunk succeeded. -/
theorem claim_C7 (outcomes : List (Option (List Nat))) :
    chunked_pipeline outcomes = assemble_containers (outcomes.filterMap id) ∧
      ((∀ bs ∈ outcomes.filterMap id, extract_chunk_audio bs ≠ none) →
        (chunked_pipeline outcomes = none ↔ ∀ o ∈ outcomes, o = none)) := by
  have h1 : chunked_pipeline outcomes
      = assemble_containers (outcomes.filterMap id) := by
    rw [chunked_pipeline]
    have he : List.enum outcomes = List.enumFrom 0 outcomes := rfl
    rw [he, sortByFst_eq_self (enumFrom_filterMap_pairwise outcomes 0),
      enumFrom_filterMap_map_snd outcomes 0]
  refine ⟨h1, fun hx => ?_⟩
  rw [h1, assemble_none_iff]
  constructor
  · intro hall o ho
    cases o with
    | none => rfl
    | some b =>
      have hb : b ∈ outcomes.filterMap id := List.mem_filterMap.mpr ⟨some b, ho, rfl⟩
      exact absurd (hall b hb) (hx b hb)
  · intro hall b hb
    obtain ⟨o, ho, hob⟩ := List.mem_filterMap.mp hb
    have := hall o ho
    subst this
    exact absurd hob (by simp)

theorem claim_C7_witness :
    chunked_pipeline [none, some [3], none]
        = assemble_containers ([none, some [3], none].filterMap id) ∧
      (chunked_pipeline [none, some [3], none] = none ↔
        ∀ o ∈ [none, some [3], none], o = none) :=
  ⟨(claim_C7 [none, some [3], none]).1,
    (claim_C7 [none, some [3], none]).2 (by decide)⟩

/-! ## Claims about the waveform crossfade assembler -/

theorem length_linspace (a b : ℚ) (n : Nat) : (linspace a b n).length = n := by
  unfold linspace
  exact (List.length_map _ _).trans (List.length_range n)

theorem crossfade_zero (a b : List ℚ) (sr : ℤ) (fd : ℚ)
    (h : pyTrunc (fd * (sr : ℚ)) = 0) :
    crossfade_audio a b sr fd = some (a ++ b) := by
  simp only [crossfade_audio]
  rw [if_pos h]

theorem crossfade_nil_left (b : List ℚ) (sr : ℤ) (fd : ℚ)
    (h : 0 < pyTrunc (fd * (sr : ℚ))) :
    crossfade_audio [] b sr fd = some b := by
  simp only [crossfade_audio]
  rw [if_neg (by omega : ¬pyTrunc (fd * (sr : ℚ)) = 0)]
  have hmin : min (pyTrunc (fd * (sr : ℚ)))
      (min ((([] : List ℚ)).length : ℤ) ((b.length : ℤ))) = 0 := by
    simp only [List.length_nil, Nat.cast_zero]
    omega
  rw [hmin, if_neg (by decide : ¬(0 : ℤ) < 0)]
  rfl

/-- The crossfade after both zero-tests, with the clamped fade width
abbreviated. -/
theorem crossfade_pos_eq (a b : List ℚ) (sr : ℤ) (fd : ℚ)
    (h0 : ¬pyTrunc (fd * (sr : ℚ)) = 0)
    (hns : ¬min (pyTrunc (fd * (sr : ℚ))) (min (a.length : ℤ) (b.length : ℤ)) < 0) :
    crossfade_audio a b sr fd =
      (match npMul (tailSlice a (min (pyTrunc (fd * (sr : ℚ)))
            (min (a.length : ℤ) (b.length : ℤ))).toNat)
          (linspace 1 0 (min (pyTrunc (fd * (sr : ℚ)))
            (min (a.length : ℤ) (b.length : ℤ))).toNat),
        npMul (b.take (min (pyTrunc (fd * (sr : ℚ)))
            (min (a.length : ℤ) (b.length : ℤ))).toNat)
          (linspace 0 1 (min (pyTrunc (fd * (sr : ℚ)))
            (min (a.length : ℤ) (b.length : ℤ))).toNat) with
       | some fadedEnd, some fadedStart =>
         match npAdd fadedEnd fadedStart with
         | some overlap => some (initSlice a (min (pyTrunc (fd * (sr : ℚ)))
             (min (a.length : ℤ) (b.length : ℤ))).toNat ++ overlap ++
             b.drop (min (pyTrunc (fd * (sr : ℚ)))
               (min (a.length : ℤ) (b.length : ℤ))).toNat)
         | none => none
       | _, _ => none) := by
  simp only [crossfade_audio]
  rw [if_neg h0, if_neg hns]

theorem crossfade_core_compute (a b : List ℚ) (n : Nat) (hn1 : 1 ≤ n)
    (hna : n ≤ a.length) (hnb : n ≤ b.length) :
    (match npMul (tailSlice a n) (linspace 1 0 n),
        npMul (b.take n) (linspace 0 1 n) with
     | some fadedEnd, some fadedStart =>
       match npAdd fadedEnd fadedStart with
       | some overlap => some (initSlice a n ++ overlap ++ b.drop n)
       | none => none
     | _, _ => none) =
      some (initSlice a n ++
        List.zipWith (· + ·)
          (List.zipWith (· * ·) (tailSlice a n) (linspace 1 0 n))
          (List.zipWith (· * ·) (b.take n) (linspace 0 1 n)) ++ b.drop n) ∧
    (initSlice a n ++
        List.zipWith (· + ·)
          (List.zipWith (· * ·) (tailSlice a n) (linspace 1 0 n))
          (List.zipWith (· * ·) (b.take n) (linspace 0 1 n)) ++ b.drop n).length + n
      = a.length + b.length := by
  have hn0 : n ≠ 0 := by omega
  have ht1 : (tailSlice a n).length = n := by
    rw [tailSlice, if_neg hn0, List.length_drop]
    omega
  have ht2 : (b.take n).length = n := by
    rw [List.length_take]
    omega
  have e1 : npMul (tailSlice a n) (linspace 1 0 n)
      = some (List.zipWith (· * ·) (tailSlice a n) (linspace 1 0 n)) := by
    unfold npMul
    rw [if_pos (by rw [ht1, length_linspace])]
  have e2 : npMul (b.take n) (linspace 0 1 n)
      = some (List.zipWith (· * ·) (b.take n) (linspace 0 1 n)) := by
    unfold npMul
    rw [if_pos (by rw [ht2, length_linspace])]
  have hz1 : (List.zipWith (· * ·) (tailSlice a n) (linspace 1 0 n)).length = n := by
    rw [List.length_zipWith, ht1, length_linspace]
    omega
  have hz2 : (List.zipWith (· * ·) (b.take n) (linspace 0 1 n)).length = n := by
    rw [List.length_zipWith, ht2, length_linspace]
    omega
  have e3 : npAdd (List.zipWith (· * ·) (tailSlice a n) (linspace 1 0 n))
      (List.zipWith (· * ·) (b.take n) (linspace 0 1 n))
      = some (List.zipWith (· + ·)
          (List.zipWith (· * ·) (tailSlice a n) (linspace 1 0 n))
          (List.zipWith (· * ·) (b.take n) (linspace 0 1 n))) := by
    unfold npAdd
    rw [if_pos (by rw [hz1, hz2])]
  refine ⟨by simp only [e1, e2, e3], ?_⟩
  have hinit : (initSlice a n).length = a.length - n := by
    rw [initSlice, if_neg hn0, List.length_take]
    omega
  have hz3 : (List.zipWith (· + ·)
      (List.zipWith (· * ·) (tailSlice a n) (linspace 1 0 n))
      (List.zipWith (· * ·) (b.take n) (linspace 0 1 n))).length = n := by
    rw [List.length_zipWith, hz1, hz2]
    omega
  rw [List.length_append, List.length_append, hinit, hz3, List.length_drop]
  omega

theorem crossfade_main (a b : List ℚ) (sr : ℤ) (fd : ℚ)
    (ha : a ≠ []) (hb : b ≠ []) (h : 0 < pyTrunc (fd * (sr : ℚ))) :
    ∃ out, crossfade_audio a b sr fd = some out ∧
      out.length + min (pyTrunc (fd * (sr : ℚ))).toNat (min a.length b.length)
        = a.length + b.length := by
  have hla : 0 < a.length := List.length_pos.mpr ha
  have hlb : 0 < b.length := List.length_pos.mpr hb
  have hca : (0 : ℤ) < (a.length : ℤ) := by exact_mod_cast hla
  have hcb : (0 : ℤ) < (b.length : ℤ) := by exact_mod_cast hlb
  have hN1 : 1 ≤ (min (pyTrunc (fd * (sr : ℚ)))
      (min ((a.length : ℤ)) ((b.length : ℤ)))).toNat := by omega
  have hNa : (min (pyTrunc (fd * (sr : ℚ)))
      (min ((a.length : ℤ)) ((b.length : ℤ)))).toNat ≤ a.length := by omega
  have hNb : (min (pyTrunc (fd * (sr : ℚ)))
      (min ((a.length : ℤ)) ((b.length : ℤ)))).toNat ≤ b.length := by omega
  obtain ⟨hc, hl⟩ := crossfade_core_compute a b
    (min (pyTrunc (fd * (sr : ℚ))) (min ((a.length : ℤ)) ((b.length : ℤ)))).toNat
    hN1 hNa hNb
  refine ⟨_, (crossfade_pos_eq a b sr fd (by omega) (by omega)).trans hc, ?_⟩
  have hmin : (min (pyTrunc (fd * (sr : ℚ)))
      (min ((a.length : ℤ)) ((b.length : ℤ)))).toNat
      = min (pyTrunc (fd * (sr : ℚ))).toNat (min a.length b.length) := by omega
  omega

/-- The default fade of `concatenate_audio_chunks` at the observed
sample rate: `int(0.1 * 24000) = 2400`. -/
theorem pyTrunc_default_fade : pyTrunc ((1 / 10 : ℚ) * ((24000 : ℤ) : ℚ)) = 2400 := by
  have h : ((1 / 10 : ℚ) * ((24000 : ℤ) : ℚ)) = (2400 : ℚ) := by norm_num
  rw [pyTrunc, h]
  norm_num

/-- C3 counterexample: with `a = [1]`, `b = []`, `sample_rate = 24000`
and `fade_duration = 1/10`, the clamped
`fade_samples = min(int(fd*sr), len(a), len(b))` is `0`, yet the
function does not return the concatenation `[1]`: the initial
`fade_samples == 0` test happens *before* clamping, so the code falls
into the fade path where Python's `audio1[:-0] = []` slice discards all
of `a` and the result is the empty buffer. -/
theorem claim_C3_counterexample :
    min (pyTrunc ((1 / 10 : ℚ) * ((24000 : ℤ) : ℚ)))
        (min ((([1] : List ℚ)).length : ℤ) ((([] : List ℚ)).length : ℤ)) = 0 ∧
      crossfade_audio [1] [] 24000 (1 / 10) ≠ some ([1] ++ []) := by
  constructor
  · rw [pyTrunc_default_fade]
    decide
  · have e := crossfade_pos_eq [1] [] 24000 (1 / 10)
      (by rw [pyTrunc_default_fade]; decide)
      (by rw [pyTrunc_default_fade]; decide)
    rw [e, pyTrunc_default_fade]
    decide

/-- C3 amended: `crossfade_audio` returns the plain concatenation when
`int(fade_duration * sample_rate) = 0` (the test the code actually
performs, before clamping), and also when `a` is empty; but not in
general whenever the clamped `fade_samples` is `0` — for positive
`int(fd*sr)`, a nonempty `a` and an empty `b` the result is not the
concatenation (it is empty for `len(a) = 1` and a numpy shape error
otherwise). -/
theorem claim_C3_amended (a b : List ℚ) (sr : ℤ) (fd : ℚ)
    (h : pyTrunc (fd * (sr : ℚ)) = 0 ∨
      (0 < pyTrunc (fd * (sr : ℚ)) ∧ a = [])) :
    crossfade_audio a b sr fd = some (a ++ b) := by
  rcases h with h | ⟨hpos, rfl⟩
  · exact crossfade_zero a b sr fd h
  · rw [crossfade_nil_left b sr fd hpos]
    rfl

theorem claim_C3_amended_witness :
    crossfade_audio [] [7] 24000 (1 / 10) = some ([] ++ [7]) :=
  claim_C3_amended [] [7] 24000 (1 / 10)
    (Or.inr ⟨by rw [pyTrunc_default_fade]; decide, rfl⟩)

/-- C4 counterexample: with `a = [2, 3]`, `b = []`, `sample_rate =
24000` and `fade_duration = 1/10` the crossfade produces no output at
all (numpy raises a broadcast error, modelled by `none`), while the
claimed length law asserts an output of length
`2 + 0 - min(2400, 2, 0) = 2`. -/
theorem claim_C4_counterexample :
    crossfade_audio [2, 3] [] 24000 (1 / 10) = none ∧
      (([2, 3] : List ℚ)).length + (([] : List ℚ)).length -
        min (pyTrunc ((1 / 10 : ℚ) * ((24000 : ℤ) : ℚ))).toNat
          (min (([2, 3] : List ℚ)).length (([] : List ℚ)).length) = 2 := by
  constructor
  · have e := crossfade_pos_eq [2, 3] [] 24000 (1 / 10)
      (by rw [pyTrunc_default_fade]; decide)
      (by rw [pyTrunc_default_fade]; decide)
    rw [e, pyTrunc_default_fade]
    decide
  · rw [pyTrunc_default_fade]
    decide

/-- C4 amended: whenever `int(fd*sr) ≥ 0` and the failing corner is
excluded (`int(fd*sr) = 0`, or `a` empty, or `b` nonempty), the
crossfade succeeds and its output length is
`len(a) + len(b) - min(int(fd*sr), len(a), len(b))`. -/
theorem claim_C4_amended (a b : List ℚ) (sr : ℤ) (fd : ℚ)
    (h0 : 0 ≤ pyTrunc (fd * (sr : ℚ)))
    (h1 : pyTrunc (fd * (sr : ℚ)) = 0 ∨ a = [] ∨ b ≠ []) :
    ∃ out, crossfade_audio a b sr fd = some out ∧
      out.length = a.length + b.length -
        min (pyTrunc (fd * (sr : ℚ))).toNat (min a.length b.length) := by
  by_cases hz : pyTrunc (fd * (sr : ℚ)) = 0
  · refine ⟨a ++ b, crossfade_zero a b sr fd hz, ?_⟩
    rw [List.length_append, hz]
    simp
  · have hpos : 0 < pyTrunc (fd * (sr : ℚ)) := by omega
    by_cases hae : a = []
    · subst hae
      refine ⟨b, crossfade_nil_left b sr fd hpos, ?_⟩
      simp
    · have hbe : b ≠ [] := by
        rcases h1 with h1 | h1 | h1
        · exact absurd h1 hz
        · exact absurd h1 hae
        · exact h1
      obtain ⟨out, hout, hlen⟩ := crossfade_main a b sr fd hae hbe hpos
      exact ⟨out, hout, by omega⟩

theorem claim_C4_amended_witness :
    ∃ out, crossfade_audio [1, 2] [3, 4] 24000 (1 / 10) = some out ∧
      out.length = (([1, 2] : List ℚ)).length + (([3, 4] : List ℚ)).length -
        min (pyTrunc ((1 / 10 : ℚ) * ((24000 : ℤ) : ℚ))).toNat
          (min (([1, 2] : List ℚ)).length (([3, 4] : List ℚ)).length) :=
  claim_C4_amended [1, 2] [3, 4] 24000 (1 / 10)
    (by rw [pyTrunc_default_fade]; decide)
    (Or.inr (Or.inr (by decide)))

/-- C8 counterexample: `concatenate_audio_chunks` raises not only on an
empty input list — a non-empty input whose later buffer is empty also
raises (the default `fade_duration = 0.1` crossfade hits a numpy
broadcast error), so "raises an error exactly when the input sequence
is empty" is false. -/
theorem claim_C8_counterexample :
    ([[5, 6], []] : List (List ℚ)) ≠ [] ∧
      concatenate_audio_chunks [[5, 6], []] 24000 = none := by
  constructor
  · decide
  · have ecf : crossfade_audio [5, 6] [] 24000 (1 / 10) = none := by
      have e := crossfade_pos_eq [5, 6] [] 24000 (1 / 10)
        (by rw [pyTrunc_default_fade]; decide)
        (by rw [pyTrunc_default_fade]; decide)
      rw [e, pyTrunc_default_fade]
      decide
    show (crossfade_audio [5, 6] [] 24000 (1 / 10)).bind
        (fun acc => [].foldlM (fun acc c => crossfade_audio acc c 24000 (1 / 10)) acc)
      = none
    rw [ecf]
    rfl

/-- C8 amended: `concatenate_audio_chunks` raises (`none`) on an empty
buffer list, and returns a single buffer unchanged; with two or more
buffers it can additionally fail when a later buffer is empty. -/
theorem claim_C8_amended :
    (∀ sr : ℤ, concatenate_audio_chunks [] sr = none) ∧
      (∀ (a : List ℚ) (sr : ℤ), concatenate_audio_chunks [a] sr = some a) :=
  ⟨fun _ => rfl, fun _ _ => rfl⟩
